import Mathlib

/-!
# Verification of the file-indexer incremental indexing and reconciliation engine

A shallow embedding, in Lean 4, of the core logic of `file_indexer/indexer.py`:
the change classifier (`_process_files_batch`), the checksum engine
(`_calculate_checksum_worker`, `_calculate_checksums_parallel`,
`_calculate_checksums_sequential`), the batch committer
(`_bulk_database_operations`), the duplicate finder
(`find_duplicates_streaming`), the two-phase checksum scheduler
(`calculate_checksums_for_duplicates`), and the reconciliation engine
(`cleanup_deleted_files`, `cleanup_empty_directories`).

Filesystem interaction is modelled by explicit oracles (`stat`, digest
reading, directory/file existence checks); the DuckDB `files` table is
modelled as a finite map from `(path, filename)` keys for the indexing
pipeline and as a list of rows for the paginated cleanup queries.  Machine
strings are Lean `String`s; all orderings used by `ORDER BY` clauses are the
lexicographic orderings on their underlying character lists.
-/

namespace FileIndexer

/-! ## Path model

The source manipulates files through `pathlib.Path`: a catalog key is the
pair `str(path.parent)` / `path.name`.  The embedding takes that pair as the
primitive notion of a file path.  Directory paths stay plain strings;
`Path.relative_to` (used by `_is_subdirectory_of_deleted_paths`) succeeds
exactly when the component list of one path is a prefix of the other's, so
we model components by splitting on `'/'`.
-/

/-- A catalog key: the containing directory (`str(Path(p).parent)`) and the
file name (`Path(p).name`). -/
structure PathName where
  dir : String
  name : String
deriving DecidableEq

/-- Split a character list on `'/'` separators, modelling the component
list of a `pathlib.Path`. -/
def splitSlash : List Char → List (List Char)
  | [] => [[]]
  | c :: cs =>
    let rest := splitSlash cs
    if c = '/' then [] :: rest
    else
      match rest with
      | [] => [[c]]
      | g :: gs => (c :: g) :: gs

/-- `Path(p).relative_to(Path(d))` succeeds — `d` is an ancestor of `p` or
equal to it. -/
def isSubdirOrSelf (p d : String) : Bool :=
  (splitSlash d.data).isPrefixOf (splitSlash p.data)

/-- `FileIndexer._is_subdirectory_of_deleted_paths`: some registered deleted
parent is an ancestor (or the path itself). -/
def is_subdirectory_of_deleted_paths (path : String) (deletedParentPaths : List String) : Bool :=
  deletedParentPaths.any (fun d => isSubdirOrSelf path d)

/-! ## Filesystem oracles and configuration -/

/-- Outcome of `Path(file_path).stat()`: metadata, `PermissionError`, or
another `OSError`. -/
inductive StatRes where
  | ok (mtime : Int) (size : Nat)
  | permDenied
  | osError
deriving DecidableEq

/-- The filesystem as seen by the indexing pipeline, fixed for the duration
of a run.  `readDigest p` is the hex digest of `p`'s content obtained by the
chunked read in `_calculate_checksum_worker`, or `none` when opening or
reading raises `PermissionError`/`OSError`. -/
structure FS where
  isSymlink : PathName → Bool
  isFile : PathName → Bool
  readDigest : PathName → Option String
  stat : PathName → StatRes

/-- The `FileIndexer` configuration fields consulted by the hashing policy. -/
structure Config where
  maxChecksumSize : Int
  skipEmptyFiles : Bool

/-- `FileIndexer._should_calculate_checksum`. -/
def should_calculate_checksum (cfg : Config) (fileSize : Nat) : Bool :=
  if cfg.maxChecksumSize < 0 then false
  else if cfg.skipEmptyFiles ∧ fileSize = 0 then false
  else !(cfg.maxChecksumSize > 0 ∧ (fileSize : Int) > cfg.maxChecksumSize : Bool)

/-- The statistics counters of the `FileIndexer` object that the embedded
operations touch. -/
structure Counters where
  checksumCalculations : Nat
  checksumReuses : Nat
  skippedFiles : Nat
  skippedChecksums : Nat
  permissionErrors : Nat
deriving DecidableEq

/-! ## ChangeClassifier: `_process_files_batch` -/

/-- A row of the `files` table (the fields keyed by `(path, filename)`). -/
structure StoredRec where
  checksum : Option String
  mtime : Int
  size : Nat
  indexedAt : Int
deriving DecidableEq

/-- An entry of the `files_to_update` / `files_to_insert` lists:
`(file_path, directory, filename, modification_datetime, file_size,
should_calc_checksum)`. -/
structure PendingEntry where
  path : PathName
  mtime : Int
  size : Nat
  needsChecksum : Bool
deriving DecidableEq

/-- The classifier's output: the three lists built by
`_process_files_batch` plus the updated counters. -/
structure BatchClassification where
  filesNeedingChecksums : List PathName
  filesToUpdate : List PendingEntry
  filesToInsert : List PendingEntry
  counters : Counters

/-- The loop body of `_process_files_batch` for one candidate path. -/
def process_file_step (cfg : Config) (stat : PathName → StatRes)
    (existing : PathName → Option StoredRec) (acc : BatchClassification)
    (p : PathName) : BatchClassification :=
  match stat p with
  | .permDenied =>
      { acc with counters.permissionErrors := acc.counters.permissionErrors + 1 }
  | .osError => acc
  | .ok m s =>
    let shouldCalc := should_calculate_checksum cfg s
    match existing p with
    | some r =>
      if m = r.mtime ∧ s = r.size then
        -- file unchanged: skip, counting a reuse only when a checksum was stored
        { acc with
          counters.checksumReuses :=
            acc.counters.checksumReuses + (if r.checksum.isSome then 1 else 0),
          counters.skippedFiles := acc.counters.skippedFiles + 1 }
      else
        -- file modified
        { acc with
          filesNeedingChecksums :=
            acc.filesNeedingChecksums ++ (if shouldCalc then [p] else []),
          counters.skippedChecksums :=
            acc.counters.skippedChecksums + (if shouldCalc then 0 else 1),
          filesToUpdate := acc.filesToUpdate ++ [⟨p, m, s, shouldCalc⟩] }
    | none =>
      -- new file
      { acc with
        filesNeedingChecksums :=
          acc.filesNeedingChecksums ++ (if shouldCalc then [p] else []),
        counters.skippedChecksums :=
          acc.counters.skippedChecksums + (if shouldCalc then 0 else 1),
        filesToInsert := acc.filesToInsert ++ [⟨p, m, s, shouldCalc⟩] }

/-- `FileIndexer._process_files_batch`: classify each path of a batch
against the bulk lookup `existing`, producing the checksum work list and the
insert/update lists. -/
def process_files_batch (cfg : Config) (stat : PathName → StatRes)
    (existing : PathName → Option StoredRec) (c : Counters)
    (paths : List PathName) : BatchClassification :=
  paths.foldl (process_file_step cfg stat existing) ⟨[], [], [], c⟩

/-- The insert entry that `_process_files_batch` produces for a path, if
any: the path must stat successfully and have no existing record. -/
def insertEntryOf (cfg : Config) (stat : PathName → StatRes)
    (existing : PathName → Option StoredRec) (p : PathName) : Option PendingEntry :=
  match stat p with
  | .ok m s =>
    match existing p with
    | none => some ⟨p, m, s, should_calculate_checksum cfg s⟩
    | some _ => none
  | _ => none

/-- The update entry that `_process_files_batch` produces for a path, if
any: the path must stat successfully and differ from its existing record in
modification time or size. -/
def updateEntryOf (cfg : Config) (stat : PathName → StatRes)
    (existing : PathName → Option StoredRec) (p : PathName) : Option PendingEntry :=
  match stat p with
  | .ok m s =>
    match existing p with
    | some r => if m = r.mtime ∧ s = r.size then none
                else some ⟨p, m, s, should_calculate_checksum cfg s⟩
    | none => none
  | _ => none

/-- The path is put on `files_needing_checksums`: it stats successfully, is
new or modified, and the hashing policy asks for a checksum. -/
def needsChecksumBool (cfg : Config) (stat : PathName → StatRes)
    (existing : PathName → Option StoredRec) (p : PathName) : Bool :=
  match stat p with
  | .ok m s =>
    should_calculate_checksum cfg s &&
      (match existing p with
       | some r => !(decide (m = r.mtime ∧ s = r.size))
       | none => true)
  | _ => false

/-! ## ChecksumEngine: `_calculate_checksum_worker` and the two dispatch strategies

`_calculate_checksum_worker` re-verifies that the path is a regular,
non-symlink file and returns `(path, "")` on symlinks, special files and
`PermissionError`/`OSError` during reading; a successful hash returns the
(never empty) hex digest.  The collectors keep only non-empty digests,
incrementing `checksum_calculations` per success; `permission_errors` is not
touched by any of these functions. -/

/-- `_calculate_checksum_worker`. -/
def calculate_checksum_worker (fs : FS) (p : PathName) : PathName × String :=
  if fs.isSymlink p then (p, "")
  else if !fs.isFile p then (p, "")
  else
    match fs.readDigest p with
    | some d => (p, d)
    | none => (p, "")

/-- The digest string the worker returns for a path (second component). -/
def workerDigest (fs : FS) (p : PathName) : String :=
  (calculate_checksum_worker fs p).2

/-- The in-flight state of a checksum collection: the `checksums` dict plus
the indexer counters. -/
structure ChecksumRun where
  checksums : PathName → Option String
  counters : Counters

/-- Collect one worker result: store the digest and count a calculation
only when the digest is non-empty (`if checksum:`). -/
def collectChecksumStep (fs : FS) (st : ChecksumRun) (p : PathName) : ChecksumRun :=
  let d := workerDigest fs p
  if d ≠ "" then
    { checksums := fun q => if q = p then some d else st.checksums q,
      counters := { st.counters with
        checksumCalculations := st.counters.checksumCalculations + 1 } }
  else st

/-- `FileIndexer._calculate_checksums_sequential`. -/
def calculate_checksums_sequential (fs : FS) (c : Counters)
    (paths : List PathName) : ChecksumRun :=
  paths.foldl (collectChecksumStep fs) ⟨fun _ => none, c⟩

/-- `FileIndexer._calculate_checksums_parallel`.  `useParallel` is
`self.use_parallel_processing`; `poolFailure` models `ProcessPoolExecutor`
construction raising `PermissionError`/`OSError`; `completionOrder` models
the order in which `as_completed` yields the per-path futures (a
permutation of the input in any real schedule). -/
def calculate_checksums_parallel (fs : FS) (useParallel poolFailure : Bool)
    (completionOrder : List PathName) (c : Counters)
    (paths : List PathName) : ChecksumRun :=
  if paths = [] then ⟨fun _ => none, c⟩
  else if !useParallel then calculate_checksums_sequential fs c paths
  else if poolFailure then calculate_checksums_sequential fs c paths
  else completionOrder.foldl (collectChecksumStep fs) ⟨fun _ => none, c⟩

/-! ## The catalog store and `_bulk_database_operations`

The `files` table, keyed by `(path, filename)`, is a finite map
`PathName → Option StoredRec`.  Inserts and updates carry the tuple shapes
built in `_process_batch`. -/

/-- The catalog as a keyed map. -/
def Db : Type := PathName → Option StoredRec

/-- A row of an INSERT or UPDATE statement prepared by `_process_batch`:
`(path, filename, checksum, modification_datetime, file_size)` /
`(checksum, modification_datetime, file_size, path, filename)`. -/
structure WriteRow where
  path : PathName
  checksum : Option String
  mtime : Int
  size : Nat
deriving DecidableEq

/-- Apply one INSERT row (fresh key; `indexed_at` defaults to the current
timestamp `now`). -/
def dbInsertRow (now : Int) (db : Db) (r : WriteRow) : Db :=
  fun q => if q = r.path then some ⟨r.checksum, r.mtime, r.size, now⟩ else db q

/-- Apply one UPDATE row: overwrite checksum, mtime, size and `indexed_at`
when the key is present; a missing key matches no row and changes
nothing. -/
def dbUpdateRow (now : Int) (db : Db) (r : WriteRow) : Db :=
  match db r.path with
  | some _ => fun q => if q = r.path then some ⟨r.checksum, r.mtime, r.size, now⟩ else db q
  | none => db

/-- A store-level error raised inside the transaction: DuckDB rejects an
INSERT whose `(path, filename)` key is already present. -/
inductive DbError where
  | primaryKeyViolation (k : PathName)
deriving DecidableEq

/-- `executemany` of the INSERT statement: rows are applied in order inside
the open transaction; a duplicate key raises, leaving the earlier rows of
the statement applied to the in-transaction state. -/
def execInserts (now : Int) : Db → List WriteRow → Db × Option DbError
  | db, [] => (db, none)
  | db, r :: rs =>
    match db r.path with
    | some _ => (db, some (.primaryKeyViolation r.path))
    | none => execInserts now (dbInsertRow now db r) rs

/-- `executemany` of the UPDATE statement. -/
def execUpdates (now : Int) (db : Db) (rows : List WriteRow) : Db :=
  rows.foldl (dbUpdateRow now) db

/-- `FileIndexer._bulk_database_operations`: BEGIN TRANSACTION; bulk
inserts; bulk updates; COMMIT — and on any failure ROLLBACK to the
pre-transaction state and re-raise to the caller.  The result pairs the
observable catalog state with either the `(added, updated)` counts or the
propagated error. -/
def bulk_database_operations (now : Int) (db : Db)
    (inserts updates : List WriteRow) : Db × Except DbError (Nat × Nat) :=
  match execInserts now db inserts with
  | (_, some e) => (db, .error e)
  | (dbAfterInserts, none) =>
      (execUpdates now dbAfterInserts updates, .ok (inserts.length, updates.length))

/-! ## `_process_batch` and `update_database` -/

/-- The rows `_process_batch` builds from `files_to_insert` (respectively
`files_to_update`): a pending entry that needed a checksum whose
calculation failed is skipped; entries that did not need a checksum get an
explicit NULL. -/
def pendingToRows (needing : List PathName) (checksums : PathName → Option String)
    (pending : List PendingEntry) : List WriteRow :=
  pending.filterMap (fun e =>
    if e.needsChecksum then
      match checksums e.path with
      | some d => some ⟨e.path, some d, e.mtime, e.size⟩
      | none => if e.path ∈ needing then none else some ⟨e.path, none, e.mtime, e.size⟩
    else some ⟨e.path, none, e.mtime, e.size⟩)

/-- `FileIndexer._process_batch`, happy path (the store raises no error, so
the `_process_batch_individually` fallback is not taken; checksums are
collected sequentially — by the dispatch-equivalence theorem the parallel
pool produces the same mapping).  Bulk lookups read the catalog itself;
inserts are applied before updates, as in `_bulk_database_operations`.  The
insert keys produced by the classifier are fresh, so no primary-key
violation can occur and the rows are applied directly. -/
def process_batch (cfg : Config) (fs : FS) (now : Int) (db : Db) (c : Counters)
    (batch : List PathName) : Db × Counters :=
  let cls := process_files_batch cfg fs.stat db c batch
  let run := calculate_checksums_sequential fs cls.counters cls.filesNeedingChecksums
  let insertData := pendingToRows cls.filesNeedingChecksums run.checksums cls.filesToInsert
  let updateData := pendingToRows cls.filesNeedingChecksums run.checksums cls.filesToUpdate
  let db1 := insertData.foldl (dbInsertRow now) db
  let db2 := execUpdates now db1 updateData
  (db2, run.counters)

/-- Split a list into consecutive batches; `n` is the batch size (callers
pass a positive `batch_size`, and any `n` makes progress here since the
head is always consumed). -/
def chunksOf (n : Nat) : List PathName → List (List PathName)
  | [] => []
  | x :: xs => (x :: xs.take (n - 1)) :: chunksOf n (xs.drop (n - 1))
termination_by l => l.length
decreasing_by
  simp only [List.length_drop, List.length_cons]
  omega

/-- `FileIndexer.update_database`: reset the per-scan counters, then feed
the walked paths (the output of `scan_directory_generator`, fixed for a
fixed filesystem state) through `_process_batch` in batches of
`batchSize`. -/
def update_database (cfg : Config) (fs : FS) (now : Int) (db : Db) (c : Counters)
    (paths : List PathName) (batchSize : Nat) : Db × Counters :=
  let c0 : Counters := { c with skippedChecksums := 0, skippedFiles := 0, permissionErrors := 0 }
  (chunksOf batchSize paths).foldl
    (fun s b => process_batch cfg fs now s.1 s.2 b) (db, c0)

/-- A record of `db` for path `p` matches the live metadata and carries a
checksum, so a rescan skips `p` and counts a reuse
(`checksum_reuses += 1`). -/
def reusedOnRescan (fs : FS) (db : Db) (p : PathName) : Bool :=
  match fs.stat p with
  | .ok m s =>
    match db p with
    | some r => decide (m = r.mtime ∧ s = r.size ∧ r.checksum.isSome)
    | none => false
  | _ => false

/-- The invariant `update_database` establishes for every walked path: the
stored record agrees with the live metadata, or hashing was required and
the worker cannot produce a digest for the path (so nothing was, or ever
will be, written for it). -/
def rescanStable (cfg : Config) (fs : FS) (db : Db) (p : PathName) : Prop :=
  match fs.stat p with
  | .ok m s =>
      (∃ r, db p = some r ∧ r.mtime = m ∧ r.size = s)
      ∨ (should_calculate_checksum cfg s = true ∧ workerDigest fs p = "")
  | _ => True

/-! ## `find_duplicates_streaming`

The query

```
SELECT f1.path, f1.filename, f1.file_size, f1.checksum, f1.modification_datetime
FROM files f1 INNER JOIN files f2 ON f1.checksum = f2.checksum
WHERE f1.checksum IS NOT NULL AND f1.rowid != f2.rowid
ORDER BY f1.checksum, f1.path, f1.filename
```

yields, for every ordered pair of distinct-rowid records with equal
non-null checksums, the left record once; the streaming loop then groups
consecutive rows with equal checksums.  Catalog rows carry their DuckDB
`rowid`. -/

/-- A catalog row as seen by the duplicate finder. -/
structure DupRow where
  rowid : Nat
  path : String
  filename : String
  fileSize : Nat
  checksum : Option String
  mtime : Int
deriving DecidableEq

/-- The `ORDER BY f1.checksum, f1.path, f1.filename` sort key (NULL
checksums are excluded by the WHERE clause, so `getD` never applies). -/
def dupKey (r : DupRow) : Lex (List Char × Lex (List Char × List Char)) :=
  toLex ((r.checksum.getD "").data, toLex (r.path.data, r.filename.data))

/-- The checksum component of the sort key. -/
def csumData (r : DupRow) : List Char := (r.checksum.getD "").data

/-- The sort relation of the duplicates query. -/
def dupLE (a b : DupRow) : Prop := dupKey a ≤ dupKey b

instance : DecidableRel dupLE :=
  fun a b => inferInstanceAs (Decidable (dupKey a ≤ dupKey b))

instance : IsTotal DupRow dupLE := ⟨fun a b => le_total (dupKey a) (dupKey b)⟩

instance : IsTrans DupRow dupLE := ⟨fun _ _ _ h h' => le_trans h h'⟩

/-- The multiset of result rows of the self-join, before ordering: the
left member of every pair of records with equal non-null checksums and
distinct rowids. -/
def dupJoinRows (catalog : List DupRow) : List DupRow :=
  ((catalog.product catalog).filter (fun ab =>
      ab.1.checksum.isSome && ab.1.checksum == ab.2.checksum
        && ab.1.rowid != ab.2.rowid)).map Prod.fst

/-- The result rows, ordered by `(checksum, path, filename)`. -/
def sortedDupRows (catalog : List DupRow) : List DupRow :=
  (dupJoinRows catalog).insertionSort dupLE

/-- The grouping loop of `find_duplicates_streaming`: consecutive result
rows with the same checksum form one duplicate group (a change of checksum
starts a new group; the final group is flushed at end of stream). -/
def chunkByChecksum : List DupRow → List (List DupRow)
  | [] => []
  | [r] => [[r]]
  | r :: r' :: rs =>
    match chunkByChecksum (r' :: rs) with
    | [] => [[r]]
    | g :: gs =>
      if r.checksum = r'.checksum then (r :: g) :: gs else [r] :: g :: gs

/-- `FileIndexer.find_duplicates_streaming`: the list of duplicate groups
yielded for a given catalog state. -/
def find_duplicates_streaming (catalog : List DupRow) : List (List DupRow) :=
  chunkByChecksum (sortedDupRows catalog)

/-! ## Phase 2 of two-phase indexing: `calculate_checksums_for_duplicates` -/

/-- How many catalog records have the given size
(`COUNT(*) ... GROUP BY file_size`). -/
def sizeCount (catalog : List DupRow) (s : Nat) : Nat :=
  catalog.countP (fun r => r.fileSize == s)

/-- How many catalog records have the given size and a NULL checksum
(`SUM(CASE WHEN checksum IS NULL THEN 1 ELSE 0 END)`). -/
def nullSizeCount (catalog : List DupRow) (s : Nat) : Nat :=
  catalog.countP (fun r => r.fileSize == s && r.checksum.isNone)

/-- The sizes selected by the `duplicate_sizes_query`: more than one record
of that size, at least one of them lacking a checksum, and — under
`skip_empty_files` — only positive sizes (`WHERE file_size > 0`).  The
query's `ORDER BY file_size` only affects processing order. -/
def duplicateSizes (skipEmpty : Bool) (catalog : List DupRow) : List Nat :=
  ((catalog.map (fun r => r.fileSize)).dedup).filter (fun s =>
    (!skipEmpty || s > 0) && decide (sizeCount catalog s > 1)
      && decide (nullSizeCount catalog s > 0))

/-- The records Phase 2 routes toward the checksum engine: for each
duplicate size (skipping `size == 0` again as a safety check under
`skip_empty_files`), the records of that size with a NULL checksum
(`files_query`); its `ORDER BY path, filename` only affects processing
order. -/
def calculate_checksums_for_duplicates_candidates (skipEmpty : Bool)
    (catalog : List DupRow) : List DupRow :=
  (duplicateSizes skipEmpty catalog).flatMap (fun s =>
    if skipEmpty && s == 0 then []
    else catalog.filter (fun r => r.fileSize == s && r.checksum.isNone))

/-! ## ReconciliationEngine: `cleanup_deleted_files` and `cleanup_empty_directories`

The cleanup walks the catalog, not the filesystem, paginating by a
`(path, filename)` cursor.  Filesystem probes are instrumented: every call
to `_check_directory_existence` is recorded in `dirProbes`, every
`Path(file).exists()` of the per-file phase in `fileProbes`. -/

/-- Outcome of `_check_directory_existence`: the directory exists, is
absent, or the check raised `PermissionError` (its message contains
"Permission denied") or another `OSError`. -/
inductive DirCheck where
  | dirExists
  | dirAbsent
  | dirPermError
  | dirOsError
deriving DecidableEq

/-- Outcome of `Path(file_path).exists()` in the individual-check phase. -/
inductive FileCheck where
  | fExists
  | fAbsent
  | fError
deriving DecidableEq

/-- The filesystem as seen by the reconciliation engine. -/
structure CleanupFS where
  dirCheck : String → DirCheck
  fileCheck : String → String → FileCheck

/-- A row of the page query `SELECT path, filename, file_size, indexed_at
FROM files`. -/
structure CatRow where
  path : String
  filename : String
  fileSize : Nat
  indexedAt : Int
deriving DecidableEq

/-- The `(path, filename)` cursor key of a row. -/
def rowKey (r : CatRow) : Lex (List Char × List Char) :=
  toLex (r.path.data, r.filename.data)

/-- The cursor key of a bare `(path, filename)` pair. -/
def pairKey (pf : String × String) : Lex (List Char × List Char) :=
  toLex (pf.1.data, pf.2.data)

/-- The `ORDER BY path, filename` relation. -/
def rowLE (a b : CatRow) : Prop := rowKey a ≤ rowKey b

instance : DecidableRel rowLE :=
  fun a b => inferInstanceAs (Decidable (rowKey a ≤ rowKey b))

instance : IsTotal CatRow rowLE := ⟨fun a b => le_total (rowKey a) (rowKey b)⟩

instance : IsTrans CatRow rowLE := ⟨fun _ _ _ h h' => le_trans h h'⟩

/-- `WHERE (path > ? OR (path = ? AND filename > ?))`; the first page
(`cursor = none`) takes every row. -/
def cursorLtB : Option (Lex (List Char × List Char)) → Lex (List Char × List Char) → Bool
  | none, _ => true
  | some c, k => decide (c < k)

/-- One page of the cursor-based pagination: rows past the cursor, ordered
by `(path, filename)`, limited to `psize`. -/
def pageQuery (db : List CatRow) (cursor : Option (Lex (List Char × List Char)))
    (psize : Nat) : List CatRow :=
  ((db.filter (fun r => cursorLtB cursor (rowKey r))).insertionSort rowLE).take psize

/-- Insert a row into the `files_by_directory` dict: append to the entry
of its directory if present, else append a new entry (Python dicts keep
insertion order). -/
def addToGroup (gs : List (String × List CatRow)) (r : CatRow) :
    List (String × List CatRow) :=
  match gs with
  | [] => [(r.path, [r])]
  | (d, rs) :: rest =>
    if d = r.path then (d, rs ++ [r]) :: rest else (d, rs) :: addToGroup rest r

/-- Group a page's rows by directory, preserving first-encounter order. -/
def files_by_directory (page : List CatRow) : List (String × List CatRow) :=
  page.foldl addToGroup []

/-- The per-page processing state of `cleanup_deleted_files`. -/
structure PageState where
  dirsIndiv : List (String × List CatRow)
  deletedParents : List String
  deletedFiles : List (String × String)
  deletedDirs : List String
  permErrors : Nat
  checkedFiles : Nat
  checkedDirs : Nat
  delByDir : Nat
  delIndiv : Nat
  dirProbes : List String
  fileProbes : List (String × String)

/-- The fresh state at the start of each page (in particular
`deleted_parent_paths` starts empty on every page). -/
def emptyPageState : PageState := ⟨[], [], [], [], 0, 0, 0, 0, 0, [], []⟩

/-- `set.add` on the directory set, as an order-preserving list insert. -/
def insertNew (l : List String) (d : String) : List String :=
  if d ∈ l then l else l ++ [d]

/-- `_mark_directory_files_as_deleted`, together with its call sites'
bookkeeping (`page_files_deleted_by_directory` and `page_checked_files`
are advanced by the returned count at every call site). -/
def mark_directory_files_as_deleted (d : String) (files : List CatRow)
    (st : PageState) : PageState :=
  { st with
    deletedDirs := insertNew st.deletedDirs d,
    deletedFiles := st.deletedFiles ++ files.map (fun r => (d, r.filename)),
    delByDir := st.delByDir + files.length,
    checkedFiles := st.checkedFiles + files.length }

/-- Phase 1 of a page, for one directory group: hierarchical
short-circuit; else one existence probe, dispatching on its outcome
(`_handle_directory_access_error` sends permission errors to the
individual phase but treats other OS errors as a deleted directory). -/
def phase1Step (fs : CleanupFS) (st : PageState) (g : String × List CatRow) :
    PageState :=
  let d := g.1
  let files := g.2
  let st := { st with checkedDirs := st.checkedDirs + 1 }
  if is_subdirectory_of_deleted_paths d st.deletedParents then
    mark_directory_files_as_deleted d files st
  else
    let st := { st with dirProbes := st.dirProbes ++ [d] }
    match fs.dirCheck d with
    | .dirPermError =>
        { st with
          permErrors := st.permErrors + 1,
          dirsIndiv := st.dirsIndiv ++ [(d, files)] }
    | .dirOsError => mark_directory_files_as_deleted d files st
    | .dirAbsent =>
        let st := mark_directory_files_as_deleted d files st
        { st with deletedParents := st.deletedParents ++ [d] }
    | .dirExists => { st with dirsIndiv := st.dirsIndiv ++ [(d, files)] }

/-- The flattening of `directories_to_process_individually` into
`remaining_files`. -/
def remainingFiles (dirsIndiv : List (String × List CatRow)) :
    List (String × String) :=
  dirsIndiv.flatMap (fun g => g.2.map (fun r => (g.1, r.filename)))

/-- Phase 2 of a page, for one remaining file: probe its existence;
missing files are marked deleted, probe errors count as permission
errors.  (The `batch_size` sub-batching of this loop only affects progress
printing.) -/
def phase2Step (fs : CleanupFS) (st : PageState) (df : String × String) :
    PageState :=
  let st := { st with
    checkedFiles := st.checkedFiles + 1,
    fileProbes := st.fileProbes ++ [df] }
  match fs.fileCheck df.1 df.2 with
  | .fAbsent =>
      { st with
        deletedFiles := st.deletedFiles ++ [df],
        delIndiv := st.delIndiv + 1 }
  | .fError => { st with permErrors := st.permErrors + 1 }
  | .fExists => st

/-- Both phases of one page, over its directory grouping. -/
def processGroups (fs : CleanupFS) (groups : List (String × List CatRow)) :
    PageState :=
  let st1 := groups.foldl (phase1Step fs) emptyPageState
  (remainingFiles st1.dirsIndiv).foldl (phase2Step fs) st1

/-- One page of `cleanup_deleted_files`. -/
def processPage (fs : CleanupFS) (page : List CatRow) : PageState :=
  processGroups fs (files_by_directory page)

/-- `_delete_files_from_database`: a dry run executes nothing; otherwise
the marked `(path, filename)` pairs are deleted in one transaction.  The
second component records the rows actually passed to the DELETE
statement. -/
def delete_files_from_database (db : List CatRow)
    (records : List (String × String)) (dryRun : Bool) :
    List CatRow × List (String × String) :=
  if records = [] then (db, [])
  else if dryRun then (db, [])
  else (db.filter (fun r => decide ((r.path, r.filename) ∉ records)), records)

/-- The run-level accumulator of `cleanup_deleted_files`. -/
structure CleanupAcc where
  totalDeleted : List (String × String)
  totalDeletedDirs : List String
  permErrors : Nat
  checkedFiles : Nat
  checkedDirs : Nat
  dirProbes : List String
  fileProbes : List (String × String)

/-- The zero accumulator. -/
def emptyCleanupAcc : CleanupAcc := ⟨[], [], 0, 0, 0, [], []⟩

/-- Merge one page's results into the run totals
(`total_deleted_directories` is a set union). -/
def accAddPage (acc : CleanupAcc) (pr : PageState) : CleanupAcc :=
  { totalDeleted := acc.totalDeleted ++ pr.deletedFiles,
    totalDeletedDirs := pr.deletedDirs.foldl insertNew acc.totalDeletedDirs,
    permErrors := acc.permErrors + pr.permErrors,
    checkedFiles := acc.checkedFiles + pr.checkedFiles,
    checkedDirs := acc.checkedDirs + pr.checkedDirs,
    dirProbes := acc.dirProbes ++ pr.dirProbes,
    fileProbes := acc.fileProbes ++ pr.fileProbes }

/-- The paginated `while True` loop of `cleanup_deleted_files`, with
explicit fuel (the caller passes more fuel than there are catalog rows,
and each page consumes at least one row past the cursor). -/
def cleanupLoop (fs : CleanupFS) (psize : Nat) (dryRun : Bool) :
    Nat → List CatRow → Option (Lex (List Char × List Char)) → CleanupAcc →
      List (String × String) → CleanupAcc × List (String × String) × List CatRow
  | 0, db, _, acc, ex => (acc, ex, db)
  | fuel + 1, db, cursor, acc, ex =>
    if h : pageQuery db cursor psize = [] then (acc, ex, db)
    else
      cleanupLoop fs psize dryRun fuel
        (delete_files_from_database db
          (processPage fs (pageQuery db cursor psize)).deletedFiles dryRun).1
        (some (rowKey ((pageQuery db cursor psize).getLast h)))
        (accAddPage acc (processPage fs (pageQuery db cursor psize)))
        (ex ++ (delete_files_from_database db
          (processPage fs (pageQuery db cursor psize)).deletedFiles dryRun).2)

/-- The statistics dictionary returned by `cleanup_deleted_files`:
`total_checked`, `deleted_files`, `deleted_directories`,
`permission_errors`. -/
structure CleanupStats where
  totalChecked : Nat
  deletedFiles : Nat
  deletedDirectories : Nat
  permissionErrors : Nat
deriving DecidableEq

/-- The observable outcome of a `cleanup_deleted_files` run. -/
structure CleanupResult where
  stats : CleanupStats
  db : List CatRow
  deleted : List (String × String)
  deletedDirs : List String
  dirProbes : List String
  fileProbes : List (String × String)
  executedDeletes : List (String × String)

/-- `FileIndexer.cleanup_deleted_files` (its `batch_size` parameter only
chunks progress printing in the per-file phase and is not material
here).  An empty catalog returns the zero statistics immediately. -/
def cleanup_deleted_files (fs : CleanupFS) (db : List CatRow) (psize : Nat)
    (dryRun : Bool) : CleanupResult :=
  if db.length = 0 then
    { stats := ⟨0, 0, 0, 0⟩, db := db, deleted := [], deletedDirs := [],
      dirProbes := [], fileProbes := [], executedDeletes := [] }
  else
    let r := cleanupLoop fs psize dryRun (db.length + 1) db none emptyCleanupAcc []
    { stats := ⟨r.1.checkedFiles, r.1.totalDeleted.length,
        r.1.totalDeletedDirs.length, r.1.permErrors⟩,
      db := r.2.2, deleted := r.1.totalDeleted,
      deletedDirs := r.1.totalDeletedDirs, dirProbes := r.1.dirProbes,
      fileProbes := r.1.fileProbes, executedDeletes := r.2.1 }

/-! ### `cleanup_empty_directories` -/

/-- The `ORDER BY path` relation on distinct directory paths. -/
def strLE (a b : String) : Prop := a.data ≤ b.data

instance : DecidableRel strLE :=
  fun a b => inferInstanceAs (Decidable (a.data ≤ b.data))

instance : IsTotal String strLE := ⟨fun a b => le_total a.data b.data⟩

instance : IsTrans String strLE := ⟨fun _ _ _ h h' => le_trans h h'⟩

/-- `WHERE path > ?` for the directory cursor. -/
def dirCursorLtB : Option (List Char) → String → Bool
  | none, _ => true
  | some c, p => decide (c < p.data)

/-- One page of `SELECT DISTINCT path FROM files ... ORDER BY path
LIMIT ?`. -/
def dirPageQuery (db : List CatRow) (cursor : Option (List Char))
    (psize : Nat) : List String :=
  (((db.map (fun r => r.path)).dedup.filter
      (fun p => dirCursorLtB cursor p)).insertionSort strLE).take psize

/-- The per-page state of `cleanup_empty_directories`. -/
structure DirPageState where
  pageDeleted : List String
  permErrors : Nat
  checkedDirs : Nat
  dirProbes : List String

/-- One directory check of `cleanup_empty_directories`: existing
directories are kept, absent ones marked for deletion, and both permission
and OS errors only count as permission errors (no deletion). -/
def emptyDirStep (fs : CleanupFS) (st : DirPageState) (d : String) : DirPageState :=
  let st : DirPageState := { st with
    checkedDirs := st.checkedDirs + 1,
    dirProbes := st.dirProbes ++ [d] }
  match fs.dirCheck d with
  | .dirExists => st
  | .dirAbsent => { st with pageDeleted := st.pageDeleted ++ [d] }
  | .dirPermError => { st with permErrors := st.permErrors + 1 }
  | .dirOsError => { st with permErrors := st.permErrors + 1 }

/-- One page's directory checks. -/
def emptyDirPhase (fs : CleanupFS) (dirs : List String) : DirPageState :=
  dirs.foldl (emptyDirStep fs) ⟨[], 0, 0, []⟩

/-- `_delete_directories_from_database`: a dry run executes nothing;
otherwise every record under the listed directories is deleted in one
transaction. -/
def delete_directories_from_database (db : List CatRow) (dirs : List String)
    (dryRun : Bool) : List CatRow × List String :=
  if dirs = [] then (db, [])
  else if dryRun then (db, [])
  else (db.filter (fun r => decide (r.path ∉ dirs)), dirs)

/-- The run-level accumulator of `cleanup_empty_directories`
(`total_deleted_directories` is a plain list there, so pages are
concatenated). -/
structure EmptyDirAcc where
  deletedDirs : List String
  permErrors : Nat
  checkedDirs : Nat
  dirProbes : List String

/-- Merge one page of directory checks into the run totals. -/
def accAddDirPage (acc : EmptyDirAcc) (pr : DirPageState) : EmptyDirAcc :=
  { deletedDirs := acc.deletedDirs ++ pr.pageDeleted,
    permErrors := acc.permErrors + pr.permErrors,
    checkedDirs := acc.checkedDirs + pr.checkedDirs,
    dirProbes := acc.dirProbes ++ pr.dirProbes }

/-- The paginated loop of `cleanup_empty_directories`, with explicit
fuel. -/
def emptyDirLoop (fs : CleanupFS) (psize : Nat) (dryRun : Bool) :
    Nat → List CatRow → Option (List Char) → EmptyDirAcc → List String →
      EmptyDirAcc × List String × List CatRow
  | 0, db, _, acc, ex => (acc, ex, db)
  | fuel + 1, db, cursor, acc, ex =>
    if h : dirPageQuery db cursor psize = [] then (acc, ex, db)
    else
      emptyDirLoop fs psize dryRun fuel
        (delete_directories_from_database db
          (emptyDirPhase fs (dirPageQuery db cursor psize)).pageDeleted dryRun).1
        (some ((dirPageQuery db cursor psize).getLast h).data)
        (accAddDirPage acc (emptyDirPhase fs (dirPageQuery db cursor psize)))
        (ex ++ (delete_directories_from_database db
          (emptyDirPhase fs (dirPageQuery db cursor psize)).pageDeleted dryRun).2)

/-- The statistics dictionary returned by `cleanup_empty_directories`:
`total_checked`, `deleted_directories`, `permission_errors`. -/
structure EmptyDirStats where
  totalChecked : Nat
  deletedDirectories : Nat
  permissionErrors : Nat
deriving DecidableEq

/-- The observable outcome of a `cleanup_empty_directories` run. -/
structure EmptyDirResult where
  stats : EmptyDirStats
  db : List CatRow
  deletedDirs : List String
  dirProbes : List String
  executedDeletes : List String

/-- `FileIndexer.cleanup_empty_directories`. -/
def cleanup_empty_directories (fs : CleanupFS) (db : List CatRow)
    (psize : Nat) (dryRun : Bool) : EmptyDirResult :=
  if (db.map (fun r => r.path)).dedup.length = 0 then
    ⟨⟨0, 0, 0⟩, db, [], [], []⟩
  else
    let r := emptyDirLoop fs psize dryRun (db.length + 1) db none ⟨[], 0, 0, []⟩ []
    ⟨⟨r.1.checkedDirs, r.1.deletedDirs.length, r.1.permErrors⟩,
      r.2.2, r.1.deletedDirs, r.1.dirProbes, r.2.1⟩

/-- The per-entry row builder of `pendingToRows` (the tuple construction in
`_process_batch` for `insert_data` / `update_data`). -/
def rowFn (needing : List PathName) (checksums : PathName → Option String)
    (e : PendingEntry) : Option WriteRow :=
  if e.needsChecksum then
    match checksums e.path with
    | some d => some ⟨e.path, some d, e.mtime, e.size⟩
    | none => if e.path ∈ needing then none else some ⟨e.path, none, e.mtime, e.size⟩
  else some ⟨e.path, none, e.mtime, e.size⟩

/-- The checksum mapping `_process_batch` computes for a batch (sequential
collection seeded with the classifier's counters). -/
def batchChecksums (cfg : Config) (fs : FS) (db : Db) (c : Counters)
    (batch : List PathName) : PathName → Option String :=
  (calculate_checksums_sequential fs
    (process_files_batch cfg fs.stat db c batch).counters
    (process_files_batch cfg fs.stat db c batch).filesNeedingChecksums).checksums

/-- The INSERT row `_process_batch` produces for one path of a batch, if
any. -/
def insertRowOf (cfg : Config) (fs : FS) (db : Db) (c : Counters)
    (batch : List PathName) (q : PathName) : Option WriteRow :=
  (insertEntryOf cfg fs.stat db q).bind
    (rowFn (process_files_batch cfg fs.stat db c batch).filesNeedingChecksums
      (batchChecksums cfg fs db c batch))

/-- The UPDATE row `_process_batch` produces for one path of a batch, if
any. -/
def updateRowOf (cfg : Config) (fs : FS) (db : Db) (c : Counters)
    (batch : List PathName) (q : PathName) : Option WriteRow :=
  (updateEntryOf cfg fs.stat db q).bind
    (rowFn (process_files_batch cfg fs.stat db c batch).filesNeedingChecksums
      (batchChecksums cfg fs db c batch))

/-- A one-file tree whose single file is readable: every path stats as
`(mtime 0, size 1)` and hashes to `"d"`. -/
def fs0 : FS := ⟨fun _ => false, fun _ => true, fun _ => some "d", fun _ => .ok 0 1⟩

/-- A configuration hashing files of size at most 1, keeping empty files. -/
def cfg0 : Config := ⟨1, false⟩

/-- The empty catalog. -/
def db0 : Db := fun _ => none

/-- All-zero counters. -/
def c00 : Counters := ⟨0, 0, 0, 0, 0⟩

/-- A single-path walk. -/
def paths0 : List PathName := [⟨"/a", "f"⟩]

/-- The path walked by `paths0`. -/
def pX : PathName := ⟨"/a", "f"⟩

/-- A tree whose single file has been modified (`mtime 10`) but can no
longer be read. -/
def fsX : FS := ⟨fun _ => false, fun _ => true, fun _ => none, fun _ => .ok 10 1⟩

/-- A catalog holding a stale record for `pX`: old `mtime 0`, with a stored
checksum. -/
def dbX : Db := fun q => if q = pX then some ⟨some "old", 0, 1, 0⟩ else none


theorem process_file_step_filesToInsert (cfg stat existing acc p) :
    (process_file_step cfg stat existing acc p).filesToInsert
      = acc.filesToInsert ++ (insertEntryOf cfg stat existing p).toList := by
  unfold process_file_step insertEntryOf
  cases stat p with
  | ok m s =>
    cases existing p with
    | some r =>
      by_cases h : m = r.mtime ∧ s = r.size <;> simp [h]
    | none => simp
  | permDenied => simp
  | osError => simp

theorem process_file_step_filesToUpdate (cfg stat existing acc p) :
    (process_file_step cfg stat existing acc p).filesToUpdate
      = acc.filesToUpdate ++ (updateEntryOf cfg stat existing p).toList := by
  unfold process_file_step updateEntryOf
  cases stat p with
  | ok m s =>
    cases existing p with
    | some r =>
      by_cases h : m = r.mtime ∧ s = r.size <;> simp [h]
    | none => simp
  | permDenied => simp
  | osError => simp

theorem process_file_step_filesNeedingChecksums (cfg stat existing acc p) :
    (process_file_step cfg stat existing acc p).filesNeedingChecksums
      = acc.filesNeedingChecksums
          ++ (if needsChecksumBool cfg stat existing p then [p] else []) := by
  unfold process_file_step needsChecksumBool
  cases stat p with
  | ok m s =>
    cases existing p with
    | some r =>
      by_cases h : m = r.mtime ∧ s = r.size <;>
        by_cases hc : should_calculate_checksum cfg s <;> simp [h, hc]
    | none =>
      by_cases hc : should_calculate_checksum cfg s <;> simp [hc]
  | permDenied => simp
  | osError => simp

theorem foldl_process_file_step_filesToInsert (cfg : Config)
    (stat : PathName → StatRes) (existing : PathName → Option StoredRec)
    (paths : List PathName) :
    ∀ acc, (paths.foldl (process_file_step cfg stat existing) acc).filesToInsert
      = acc.filesToInsert ++ paths.filterMap (insertEntryOf cfg stat existing) := by
  induction paths with
  | nil => intro acc; simp
  | cons p ps ih =>
    intro acc
    simp only [List.foldl_cons, ih, process_file_step_filesToInsert,
      List.filterMap_cons]
    cases insertEntryOf cfg stat existing p <;> simp

theorem foldl_process_file_step_filesToUpdate (cfg : Config)
    (stat : PathName → StatRes) (existing : PathName → Option StoredRec)
    (paths : List PathName) :
    ∀ acc, (paths.foldl (process_file_step cfg stat existing) acc).filesToUpdate
      = acc.filesToUpdate ++ paths.filterMap (updateEntryOf cfg stat existing) := by
  induction paths with
  | nil => intro acc; simp
  | cons p ps ih =>
    intro acc
    simp only [List.foldl_cons, ih, process_file_step_filesToUpdate,
      List.filterMap_cons]
    cases updateEntryOf cfg stat existing p <;> simp

theorem foldl_process_file_step_filesNeedingChecksums (cfg : Config)
    (stat : PathName → StatRes) (existing : PathName → Option StoredRec)
    (paths : List PathName) :
    ∀ acc, (paths.foldl (process_file_step cfg stat existing) acc).filesNeedingChecksums
      = acc.filesNeedingChecksums ++ paths.filter (needsChecksumBool cfg stat existing) := by
  induction paths with
  | nil => intro acc; simp
  | cons p ps ih =>
    intro acc
    simp only [List.foldl_cons, ih, process_file_step_filesNeedingChecksums,
      List.filter_cons]
    cases hb : needsChecksumBool cfg stat existing p <;> simp [hb]

theorem process_files_batch_filesToInsert (cfg stat existing c paths) :
    (process_files_batch cfg stat existing c paths).filesToInsert
      = paths.filterMap (insertEntryOf cfg stat existing) := by
  unfold process_files_batch
  simpa using foldl_process_file_step_filesToInsert cfg stat existing paths ⟨[], [], [], c⟩

theorem process_files_batch_filesToUpdate (cfg stat existing c paths) :
    (process_files_batch cfg stat existing c paths).filesToUpdate
      = paths.filterMap (updateEntryOf cfg stat existing) := by
  unfold process_files_batch
  simpa using foldl_process_file_step_filesToUpdate cfg stat existing paths ⟨[], [], [], c⟩

theorem process_files_batch_filesNeedingChecksums (cfg stat existing c paths) :
    (process_files_batch cfg stat existing c paths).filesNeedingChecksums
      = paths.filter (needsChecksumBool cfg stat existing) := by
  unfold process_files_batch
  simpa using foldl_process_file_step_filesNeedingChecksums cfg stat existing paths ⟨[], [], [], c⟩

theorem insertEntryOf_eq_some (cfg : Config) (stat : PathName → StatRes)
    (existing : PathName → Option StoredRec) (a : PathName) (e : PendingEntry) :
    insertEntryOf cfg stat existing a = some e ↔
      ∃ m s, stat a = .ok m s ∧ existing a = none
        ∧ e = ⟨a, m, s, should_calculate_checksum cfg s⟩ := by
  unfold insertEntryOf
  cases hs : stat a with
  | ok m s =>
    cases he : existing a with
    | none =>
      simp only [Option.some.injEq, StatRes.ok.injEq]
      constructor
      · rintro rfl
        exact ⟨m, s, ⟨rfl, rfl⟩, trivial, rfl⟩
      · rintro ⟨m₁, s₁, ⟨rfl, rfl⟩, -, h⟩
        exact h.symm
    | some r => simp
  | permDenied => simp
  | osError => simp

theorem updateEntryOf_eq_some (cfg : Config) (stat : PathName → StatRes)
    (existing : PathName → Option StoredRec) (a : PathName) (e : PendingEntry) :
    updateEntryOf cfg stat existing a = some e ↔
      ∃ m s r, stat a = .ok m s ∧ existing a = some r ∧ ¬(m = r.mtime ∧ s = r.size)
        ∧ e = ⟨a, m, s, should_calculate_checksum cfg s⟩ := by
  unfold updateEntryOf
  cases hs : stat a with
  | ok m s =>
    cases he : existing a with
    | none => simp
    | some r =>
      by_cases h : m = r.mtime ∧ s = r.size
      · simp [h]
      · simp only [if_neg h, Option.some.injEq, StatRes.ok.injEq,
          Option.some.injEq]
        constructor
        · rintro rfl
          exact ⟨m, s, r, ⟨rfl, rfl⟩, rfl, h, rfl⟩
        · rintro ⟨m₁, s₁, r₁, ⟨rfl, rfl⟩, hr, -, hee⟩
          exact hee.symm
  | permDenied => simp
  | osError => simp

theorem needsChecksumBool_eq_true (cfg : Config) (stat : PathName → StatRes)
    (existing : PathName → Option StoredRec) (a : PathName) :
    needsChecksumBool cfg stat existing a = true ↔
      ∃ m s, stat a = .ok m s ∧ should_calculate_checksum cfg s = true
        ∧ (∀ r, existing a = some r → ¬(m = r.mtime ∧ s = r.size)) := by
  unfold needsChecksumBool
  cases hs : stat a with
  | ok m s =>
    cases he : existing a with
    | none =>
      simp only [Bool.and_true, StatRes.ok.injEq]
      constructor
      · intro h
        exact ⟨m, s, ⟨rfl, rfl⟩, h, fun r hr => by cases hr⟩
      · rintro ⟨m₁, s₁, ⟨rfl, rfl⟩, h, -⟩
        exact h
    | some r =>
      by_cases h : m = r.mtime ∧ s = r.size
      · simp [h]
      · simp only [h, Bool.and_true, StatRes.ok.injEq, Option.some.injEq,
          decide_False, Bool.not_false]
        constructor
        · intro hc
          refine ⟨m, s, ⟨rfl, rfl⟩, hc, ?_⟩
          rintro r' rfl
          exact h
        · rintro ⟨m₁, s₁, ⟨rfl, rfl⟩, hc, -⟩
          exact hc
  | permDenied => simp
  | osError => simp

theorem mem_insertPaths_iff (cfg : Config) (stat : PathName → StatRes)
    (existing : PathName → Option StoredRec) (c : Counters)
    (paths : List PathName) (p : PathName) :
    p ∈ (process_files_batch cfg stat existing c paths).filesToInsert.map
        (fun e => e.path)
      ↔ p ∈ paths ∧ (∃ m s, stat p = .ok m s) ∧ existing p = none := by
  rw [process_files_batch_filesToInsert]
  simp only [List.mem_map, List.mem_filterMap]
  constructor
  · rintro ⟨e, ⟨a, ha, hae⟩, hep⟩
    rw [insertEntryOf_eq_some] at hae
    obtain ⟨m, s, hs, he, hee⟩ := hae
    subst hee
    simp only at hep
    subst hep
    exact ⟨ha, ⟨m, s, hs⟩, he⟩
  · rintro ⟨hp, ⟨m, s, hs⟩, he⟩
    refine ⟨⟨p, m, s, should_calculate_checksum cfg s⟩, ⟨p, hp, ?_⟩, rfl⟩
    rw [insertEntryOf_eq_some]
    exact ⟨m, s, hs, he, rfl⟩

theorem mem_updatePaths_iff (cfg : Config) (stat : PathName → StatRes)
    (existing : PathName → Option StoredRec) (c : Counters)
    (paths : List PathName) (p : PathName) :
    p ∈ (process_files_batch cfg stat existing c paths).filesToUpdate.map
        (fun e => e.path)
      ↔ p ∈ paths ∧ ∃ m s r, stat p = .ok m s ∧ existing p = some r
          ∧ ¬(m = r.mtime ∧ s = r.size) := by
  rw [process_files_batch_filesToUpdate]
  simp only [List.mem_map, List.mem_filterMap]
  constructor
  · rintro ⟨e, ⟨a, ha, hae⟩, hep⟩
    rw [updateEntryOf_eq_some] at hae
    obtain ⟨m, s, r, hs, he, hne, hee⟩ := hae
    subst hee
    simp only at hep
    subst hep
    exact ⟨ha, m, s, r, hs, he, hne⟩
  · rintro ⟨hp, m, s, r, hs, he, hne⟩
    refine ⟨⟨p, m, s, should_calculate_checksum cfg s⟩, ⟨p, hp, ?_⟩, rfl⟩
    rw [updateEntryOf_eq_some]
    exact ⟨m, s, r, hs, he, hne, rfl⟩

/-- C4: for every candidate path of a batch, the classifier marks it NEW
(an insert entry is produced) exactly when it stats successfully and no
record exists for its key; it marks it MODIFIED (an update entry is
produced) exactly when a record exists and live size or mtime differ; when
a record exists and both match, the path is UNCHANGED and appears in
neither output list (no write); and no path is in both lists. -/
theorem change_classifier_correct (cfg : Config) (stat : PathName → StatRes)
    (existing : PathName → Option StoredRec) (c : Counters)
    (paths : List PathName) (p : PathName) :
    (p ∈ (process_files_batch cfg stat existing c paths).filesToInsert.map
          (fun e => e.path)
        ↔ p ∈ paths ∧ (∃ m s, stat p = .ok m s) ∧ existing p = none)
    ∧ (p ∈ (process_files_batch cfg stat existing c paths).filesToUpdate.map
          (fun e => e.path)
        ↔ p ∈ paths ∧ ∃ m s r, stat p = .ok m s ∧ existing p = some r
            ∧ ¬(m = r.mtime ∧ s = r.size))
    ∧ (∀ m s r, stat p = .ok m s → existing p = some r → m = r.mtime → s = r.size →
        p ∉ (process_files_batch cfg stat existing c paths).filesToInsert.map
            (fun e => e.path)
          ∧ p ∉ (process_files_batch cfg stat existing c paths).filesToUpdate.map
              (fun e => e.path))
    ∧ ¬(p ∈ (process_files_batch cfg stat existing c paths).filesToInsert.map
            (fun e => e.path)
        ∧ p ∈ (process_files_batch cfg stat existing c paths).filesToUpdate.map
            (fun e => e.path)) := by
  refine ⟨mem_insertPaths_iff cfg stat existing c paths p,
    mem_updatePaths_iff cfg stat existing c paths p, ?_, ?_⟩
  · intro m s r hs he hm hsz
    constructor
    · rw [mem_insertPaths_iff]
      rintro ⟨-, -, hnone⟩
      rw [he] at hnone
      exact Option.noConfusion hnone
    · rw [mem_updatePaths_iff]
      rintro ⟨-, m', s', r', hs', he', hne⟩
      rw [hs] at hs'
      cases hs'
      rw [he] at he'
      cases he'
      exact hne ⟨hm, hsz⟩
  · rw [mem_insertPaths_iff, mem_updatePaths_iff]
    rintro ⟨⟨-, -, hnone⟩, ⟨-, m, s, r, -, hsome, -⟩⟩
    rw [hnone] at hsome
    exact Option.noConfusion hsome

theorem change_classifier_correct_witness :
    (⟨"d", "n"⟩ : PathName) ∈ (process_files_batch ⟨100, true⟩
        (fun _ => .ok 1 5) (fun _ => none) ⟨0, 0, 0, 0, 0⟩
        [⟨"d", "n"⟩]).filesToInsert.map (fun e => e.path) :=
  (change_classifier_correct ⟨100, true⟩ (fun _ => .ok 1 5) (fun _ => none)
      ⟨0, 0, 0, 0, 0⟩ [⟨"d", "n"⟩] ⟨"d", "n"⟩).1.mpr
    ⟨by decide, ⟨1, 5, rfl⟩, rfl⟩

theorem mem_duplicateSizes_iff (skipEmpty : Bool) (catalog : List DupRow)
    (s : Nat) :
    s ∈ duplicateSizes skipEmpty catalog ↔
      s ∈ catalog.map (fun r => r.fileSize)
        ∧ (skipEmpty = true → 0 < s)
        ∧ 1 < sizeCount catalog s ∧ 0 < nullSizeCount catalog s := by
  unfold duplicateSizes
  rw [List.mem_filter, List.mem_dedup]
  constructor
  · rintro ⟨hmem, hcond⟩
    simp only [Bool.and_eq_true, Bool.or_eq_true, Bool.not_eq_true',
      decide_eq_true_eq] at hcond
    obtain ⟨⟨hskip, hc1⟩, hc2⟩ := hcond
    refine ⟨hmem, ?_, hc1, hc2⟩
    intro hse
    cases hskip with
    | inl h => rw [hse] at h; cases h
    | inr h => simpa using h
  · rintro ⟨hmem, hskip, hc1, hc2⟩
    refine ⟨hmem, ?_⟩
    simp only [Bool.and_eq_true, Bool.or_eq_true, Bool.not_eq_true',
      decide_eq_true_eq]
    refine ⟨⟨?_, hc1⟩, hc2⟩
    cases hsk : skipEmpty with
    | false => exact Or.inl rfl
    | true => exact Or.inr (by simpa using hskip hsk)

/-- C3 (amended): a catalog record is routed to Phase-2 checksum
calculation only if its checksum is NULL and its size bucket has more than
one member in total — at least one of which (itself) lacks a checksum —
and, under skip-empty, only if its size is positive.  In particular a
record whose size is unique in the catalog never receives a checksum under
two-phase mode. -/
theorem phase2_hashes_only_size_colliding (skipEmpty : Bool)
    (catalog : List DupRow) (r : DupRow)
    (h : r ∈ calculate_checksums_for_duplicates_candidates skipEmpty catalog) :
    r ∈ catalog ∧ r.checksum = none
      ∧ 1 < sizeCount catalog r.fileSize
      ∧ 1 ≤ nullSizeCount catalog r.fileSize
      ∧ (skipEmpty = true → 0 < r.fileSize) := by
  unfold calculate_checksums_for_duplicates_candidates at h
  rw [List.mem_flatMap] at h
  obtain ⟨s, hs, hr⟩ := h
  rw [mem_duplicateSizes_iff] at hs
  obtain ⟨-, hskip, hc1, hc2⟩ := hs
  by_cases hse : (skipEmpty && s == 0) = true
  · rw [if_pos hse] at hr
    cases hr
  · rw [if_neg hse] at hr
    rw [List.mem_filter] at hr
    obtain ⟨hrc, hcond⟩ := hr
    simp only [Bool.and_eq_true, beq_iff_eq, Option.isNone_iff_eq_none] at hcond
    obtain ⟨hsize, hnull⟩ := hcond
    subst hsize
    exact ⟨hrc, hnull, hc1, Nat.one_le_iff_ne_zero.mpr (Nat.pos_iff_ne_zero.mp hc2), hskip⟩

theorem phase2_hashes_only_size_colliding_witness :
    (⟨1, "p", "b", 5, none, 0⟩ : DupRow) ∈
        calculate_checksums_for_duplicates_candidates true
          [⟨0, "p", "a", 5, none, 0⟩, ⟨1, "p", "b", 5, none, 0⟩]
      ∧ 1 < sizeCount [⟨0, "p", "a", 5, none, 0⟩, ⟨1, "p", "b", 5, none, 0⟩] 5 :=
  ⟨by decide,
    (phase2_hashes_only_size_colliding true
      [⟨0, "p", "a", 5, none, 0⟩, ⟨1, "p", "b", 5, none, 0⟩]
      ⟨1, "p", "b", 5, none, 0⟩ (by decide)).2.2.1⟩

theorem phase2_single_null_member_counterexample :
    (⟨1, "p", "b", 5, none, 0⟩ : DupRow) ∈
        calculate_checksums_for_duplicates_candidates true
          [⟨0, "p", "a", 5, some "x", 0⟩, ⟨1, "p", "b", 5, none, 0⟩]
      ∧ nullSizeCount [⟨0, "p", "a", 5, some "x", 0⟩, ⟨1, "p", "b", 5, none, 0⟩] 5 = 1 := by
  constructor
  · decide
  · decide

theorem execInserts_isSome_mono (now : Int) :
    ∀ (rows : List WriteRow) (db : Db) (p : PathName),
      (db p).isSome = true → (((execInserts now db rows).1) p).isSome = true := by
  intro rows
  induction rows with
  | nil => intro db p h; exact h
  | cons r rs ih =>
    intro db p h
    unfold execInserts
    cases hk : db r.path with
    | some v => exact h
    | none =>
      refine ih _ p ?_
      unfold dbInsertRow
      by_cases hq : p = r.path <;> simp [hq, h]

theorem execInserts_applies_all (now : Int) :
    ∀ (rows : List WriteRow) (db : Db),
      (execInserts now db rows).2 = none →
        ∀ r ∈ rows, (((execInserts now db rows).1) r.path).isSome = true := by
  intro rows
  induction rows with
  | nil => intro db _ r hr; cases hr
  | cons r0 rs ih =>
    intro db hok r hr
    unfold execInserts at hok ⊢
    cases hk : db r0.path with
    | some v => rw [hk] at hok; cases hok
    | none =>
      rw [hk] at hok
      rcases List.mem_cons.mp hr with rfl | hmem
      · refine execInserts_isSome_mono now rs _ r.path ?_
        unfold dbInsertRow
        simp
      · exact ih _ hok r hmem

theorem execUpdates_isSome_mono (now : Int) :
    ∀ (rows : List WriteRow) (db : Db) (p : PathName),
      (db p).isSome = true → ((execUpdates now db rows) p).isSome = true := by
  intro rows
  induction rows with
  | nil => intro db p h; exact h
  | cons r rs ih =>
    intro db p h
    unfold execUpdates at ih ⊢
    rw [List.foldl_cons]
    refine ih _ p ?_
    unfold dbUpdateRow
    cases hk : db r.path with
    | some v => by_cases hq : p = r.path <;> simp [hq, h]
    | none => exact h

/-- C6: committing a batch of inserts and updates is all-or-nothing.
Either the transaction succeeds — the caller gets the (added, updated)
counts and every inserted key is present in the resulting catalog — or it
fails, the rollback restores exactly the pre-transaction catalog, and the
error value is surfaced to the caller; a partially-applied batch is never
the result. -/
theorem bulk_database_operations_atomic (now : Int) (db : Db)
    (inserts updates : List WriteRow) :
    (∀ e, (bulk_database_operations now db inserts updates).2 = .error e →
        (bulk_database_operations now db inserts updates).1 = db)
    ∧ ((bulk_database_operations now db inserts updates).2
          = .ok (inserts.length, updates.length)
        ∨ ∃ e, (bulk_database_operations now db inserts updates).2 = .error e)
    ∧ ((bulk_database_operations now db inserts updates).2
          = .ok (inserts.length, updates.length) →
        ∀ r ∈ inserts,
          (((bulk_database_operations now db inserts updates).1) r.path).isSome = true) := by
  unfold bulk_database_operations
  cases hins : execInserts now db inserts with
  | mk db1 err =>
    cases err with
    | some e => exact ⟨fun _ _ => rfl, Or.inr ⟨e, rfl⟩, fun h => by cases h⟩
    | none =>
      refine ⟨?_, ?_, ?_⟩
      · intro e he
        cases he
      · exact Or.inl rfl
      · intro hok r hr
        have h1 : ((execInserts now db inserts).1 r.path).isSome = true := by
          have := execInserts_applies_all now inserts db (by rw [hins]) r hr
          exact this
        rw [hins] at h1
        exact execUpdates_isSome_mono now updates db1 r.path h1

theorem bulk_database_operations_atomic_witness :
    (bulk_database_operations 7
        (fun k => if k = ⟨"d", "a"⟩ then some ⟨none, 0, 0, 0⟩ else none)
        [⟨⟨"d", "a"⟩, none, 1, 2⟩] []).2
      = .error (.primaryKeyViolation ⟨"d", "a"⟩)
    ∧ (bulk_database_operations 7
        (fun k => if k = ⟨"d", "a"⟩ then some ⟨none, 0, 0, 0⟩ else none)
        [⟨⟨"d", "a"⟩, none, 1, 2⟩] []).1
      = (fun k => if k = ⟨"d", "a"⟩ then some ⟨none, 0, 0, 0⟩ else none) :=
  ⟨rfl,
    (bulk_database_operations_atomic 7
      (fun k => if k = ⟨"d", "a"⟩ then some ⟨none, 0, 0, 0⟩ else none)
      [⟨⟨"d", "a"⟩, none, 1, 2⟩] []).1
      (.primaryKeyViolation ⟨"d", "a"⟩) rfl⟩

theorem foldl_collect_checksums (fs : FS) (paths : List PathName) :
    ∀ (init : ChecksumRun) (q : PathName),
      ((paths.foldl (collectChecksumStep fs) init).checksums) q
        = if workerDigest fs q ≠ "" ∧ q ∈ paths then some (workerDigest fs q)
          else init.checksums q := by
  induction paths with
  | nil => intro init q; simp
  | cons x xs ih =>
    intro init q
    rw [List.foldl_cons, ih]
    by_cases hq : workerDigest fs q ≠ "" ∧ q ∈ xs
    · rw [if_pos hq, if_pos ⟨hq.1, List.mem_cons_of_mem x hq.2⟩]
    · rw [if_neg hq]
      unfold collectChecksumStep
      by_cases hx : workerDigest fs x ≠ ""
      · simp only [if_pos hx]
        by_cases hqx : q = x
        · subst hqx
          rw [if_pos rfl, if_pos ⟨hx, List.mem_cons_self q xs⟩]
        · rw [if_neg hqx, if_neg ?_]
          rintro ⟨hne, hmem⟩
          rcases List.mem_cons.mp hmem with h | h
          · exact hqx h
          · exact hq ⟨hne, h⟩
      · simp only [if_neg hx]
        rw [if_neg ?_]
        rintro ⟨hne, hmem⟩
        rcases List.mem_cons.mp hmem with h | h
        · subst h; exact hx hne
        · exact hq ⟨hne, h⟩

theorem foldl_collect_counters (fs : FS) (paths : List PathName) :
    ∀ init : ChecksumRun,
      (paths.foldl (collectChecksumStep fs) init).counters
        = { init.counters with
            checksumCalculations := init.counters.checksumCalculations
              + paths.countP (fun q => decide (workerDigest fs q ≠ "")) } := by
  induction paths with
  | nil => intro init; simp
  | cons x xs ih =>
    intro init
    rw [List.foldl_cons, ih]
    unfold collectChecksumStep
    by_cases hx : workerDigest fs x ≠ ""
    · simp only [if_pos hx, List.countP_cons]
      have hdec : (decide (workerDigest fs x ≠ "")) = true := by
        exact decide_eq_true hx
      rw [hdec]
      simp only [if_pos rfl]
      congr 1
      simp only [if_true]
      omega
    · simp only [if_neg hx, List.countP_cons]
      have hdec : (decide (workerDigest fs x ≠ "")) = false := by
        simpa using fun h => hx h
      rw [hdec]
      congr 1

/-- C8 (amended): for every input list, a path whose content cannot be
read (symlink, not a regular file, permission or OS error — the worker
returns an empty digest) is omitted from the resulting mapping; every
readable path appears with its digest; the batch as a whole always
produces a result; and the `permission_errors` counter is left unchanged
by the checksum engine (only `checksum_calculations` moves, by the number
of successful hashes). -/
theorem checksum_engine_per_file_failures (fs : FS) (c : Counters)
    (paths : List PathName) (p : PathName) :
    ((calculate_checksums_sequential fs c paths).checksums p = none
        ↔ (p ∉ paths ∨ workerDigest fs p = ""))
    ∧ (workerDigest fs p ≠ "" → p ∈ paths →
        (calculate_checksums_sequential fs c paths).checksums p
          = some (workerDigest fs p))
    ∧ (calculate_checksums_sequential fs c paths).counters.permissionErrors
        = c.permissionErrors
    ∧ (calculate_checksums_sequential fs c paths).counters.checksumCalculations
        = c.checksumCalculations
            + paths.countP (fun q => decide (workerDigest fs q ≠ "")) := by
  unfold calculate_checksums_sequential
  rw [foldl_collect_checksums, foldl_collect_counters]
  refine ⟨?_, ?_, rfl, rfl⟩
  · by_cases h : workerDigest fs p ≠ "" ∧ p ∈ paths
    · rw [if_pos h]
      constructor
      · intro hx
        exact Option.noConfusion hx
      · intro hx
        rcases hx with hx | hx
        · exact absurd h.2 hx
        · exact absurd hx h.1
    · rw [if_neg h]
      simp only [true_iff]
      by_cases hmem : p ∈ paths
      · right
        by_contra hne
        exact h ⟨hne, hmem⟩
      · exact Or.inl hmem
  · intro hne hmem
    rw [if_pos ⟨hne, hmem⟩]

theorem checksum_engine_counter_counterexample :
    ((calculate_checksums_sequential
        ⟨fun _ => false, fun _ => true, fun _ => none, fun _ => .osError⟩
        ⟨0, 0, 0, 0, 0⟩ [⟨"d", "x"⟩]).checksums ⟨"d", "x"⟩ = none)
    ∧ (calculate_checksums_sequential
        ⟨fun _ => false, fun _ => true, fun _ => none, fun _ => .osError⟩
        ⟨0, 0, 0, 0, 0⟩ [⟨"d", "x"⟩]).counters.permissionErrors = 0 := by
  constructor
  · decide
  · decide

theorem checksum_engine_per_file_failures_witness :
    workerDigest ⟨fun _ => false, fun _ => true, fun _ => some "h", fun _ => .osError⟩
        ⟨"d", "x"⟩ ≠ ""
    ∧ (⟨"d", "x"⟩ : PathName) ∈ [(⟨"d", "x"⟩ : PathName)]
    ∧ (calculate_checksums_sequential
        ⟨fun _ => false, fun _ => true, fun _ => some "h", fun _ => .osError⟩
        ⟨0, 0, 0, 0, 0⟩ [⟨"d", "x"⟩]).checksums ⟨"d", "x"⟩
      = some (workerDigest
          ⟨fun _ => false, fun _ => true, fun _ => some "h", fun _ => .osError⟩
          ⟨"d", "x"⟩) :=
  ⟨by decide, by decide,
    (checksum_engine_per_file_failures
        ⟨fun _ => false, fun _ => true, fun _ => some "h", fun _ => .osError⟩
        ⟨0, 0, 0, 0, 0⟩ [⟨"d", "x"⟩] ⟨"d", "x"⟩).2.1 (by decide) (by decide)⟩

/-- C9: for a fixed filesystem state, the parallel dispatch — under any
completion order of the worker futures, and also when the pool cannot be
established and the code falls back — produces exactly the sequential
fallback's path-to-digest mapping and counters; the dispatch strategy is
observationally invisible. -/
theorem checksum_dispatch_equivalent (fs : FS) (useParallel poolFailure : Bool)
    (completionOrder : List PathName) (c : Counters) (paths : List PathName)
    (hperm : completionOrder.Perm paths) :
    (calculate_checksums_parallel fs useParallel poolFailure
        completionOrder c paths).checksums
      = (calculate_checksums_sequential fs c paths).checksums
    ∧ (calculate_checksums_parallel fs useParallel poolFailure
        completionOrder c paths).counters
      = (calculate_checksums_sequential fs c paths).counters := by
  have hcore1 : (completionOrder.foldl (collectChecksumStep fs)
          ⟨fun _ => none, c⟩).checksums
      = (calculate_checksums_sequential fs c paths).checksums := by
    unfold calculate_checksums_sequential
    funext q
    rw [foldl_collect_checksums, foldl_collect_checksums]
    by_cases hq : workerDigest fs q ≠ "" ∧ q ∈ paths
    · rw [if_pos ⟨hq.1, (hperm.mem_iff).mpr hq.2⟩, if_pos hq]
    · rw [if_neg ?_, if_neg hq]
      rintro ⟨hne, hmem⟩
      exact hq ⟨hne, (hperm.mem_iff).mp hmem⟩
  have hcore2 : (completionOrder.foldl (collectChecksumStep fs)
          ⟨fun _ => none, c⟩).counters
      = (calculate_checksums_sequential fs c paths).counters := by
    unfold calculate_checksums_sequential
    rw [foldl_collect_counters, foldl_collect_counters, hperm.countP_eq]
  unfold calculate_checksums_parallel
  by_cases hnil : paths = []
  · subst hnil
    have hord : completionOrder = [] := List.Perm.eq_nil hperm
    subst hord
    exact ⟨rfl, rfl⟩
  · by_cases hup : useParallel <;> by_cases hpf : poolFailure <;>
      simp [hnil, hup, hpf, hcore1, hcore2]

theorem checksum_dispatch_equivalent_witness :
    (calculate_checksums_parallel
        ⟨fun _ => false, fun _ => true, fun _ => some "h", fun _ => .osError⟩
        true false [⟨"d", "x"⟩] ⟨0, 0, 0, 0, 0⟩ [⟨"d", "x"⟩]).checksums
      = (calculate_checksums_sequential
          ⟨fun _ => false, fun _ => true, fun _ => some "h", fun _ => .osError⟩
          ⟨0, 0, 0, 0, 0⟩ [⟨"d", "x"⟩]).checksums :=
  (checksum_dispatch_equivalent
      ⟨fun _ => false, fun _ => true, fun _ => some "h", fun _ => .osError⟩
      true false [⟨"d", "x"⟩] ⟨0, 0, 0, 0, 0⟩ [⟨"d", "x"⟩]
      (List.Perm.refl _)).1

theorem chunkByChecksum_flatten : ∀ l : List DupRow, (chunkByChecksum l).flatten = l
  | [] => rfl
  | [r] => rfl
  | r :: r' :: rs => by
    have ih := chunkByChecksum_flatten (r' :: rs)
    unfold chunkByChecksum
    cases hc : chunkByChecksum (r' :: rs) with
    | nil =>
      rw [hc] at ih
      simp at ih
    | cons g gs =>
      rw [hc] at ih
      by_cases heq : r.checksum = r'.checksum
      · simp only [if_pos heq, List.flatten_cons] at ih ⊢
        simp [ih]
      · simp only [if_neg heq, List.flatten_cons] at ih ⊢
        simp [ih]

theorem chunkByChecksum_cons (r : DupRow) : ∀ rs : List DupRow,
    ∃ g gs, chunkByChecksum (r :: rs) = (r :: g) :: gs
  | [] => ⟨[], [], rfl⟩
  | r' :: rs' => by
    obtain ⟨g', gs', hg⟩ := chunkByChecksum_cons r' rs'
    unfold chunkByChecksum
    rw [hg]
    by_cases heq : r.checksum = r'.checksum
    · exact ⟨r' :: g', gs', by simp only [if_pos heq]⟩
    · exact ⟨[], (r' :: g') :: gs', by simp only [if_neg heq]⟩

theorem chunkByChecksum_same : ∀ l : List DupRow, ∀ g ∈ chunkByChecksum l,
    ∀ x ∈ g, ∀ y ∈ g, x.checksum = y.checksum
  | [] => by simp [chunkByChecksum]
  | [r] => by
    intro g hg x hx y hy
    simp only [chunkByChecksum, List.mem_singleton] at hg
    subst hg
    rw [List.mem_singleton] at hx hy
    rw [hx, hy]
  | r :: r' :: rs => by
    intro g hg x hx y hy
    have ih := chunkByChecksum_same (r' :: rs)
    obtain ⟨g0, gs0, hc⟩ := chunkByChecksum_cons r' rs
    unfold chunkByChecksum at hg
    rw [hc] at hg
    by_cases heq : r.checksum = r'.checksum
    · simp only [if_pos heq] at hg
      rcases List.mem_cons.mp hg with rfl | htail
      · -- g = r :: r' :: g0
        have hshare : ∀ z ∈ r' :: g0, z.checksum = r'.checksum := by
          intro z hz
          exact ih (r' :: g0) (by rw [hc]; exact List.mem_cons_self _ _) z hz r'
            (List.mem_cons_self _ _)
        have hall : ∀ z ∈ r :: r' :: g0, z.checksum = r.checksum := by
          intro z hz
          rcases List.mem_cons.mp hz with rfl | hz'
          · rfl
          · rw [hshare z hz', heq]
        rw [hall x hx, hall y hy]
      · exact ih g (by rw [hc]; exact List.mem_cons_of_mem _ htail) x hx y hy
    · simp only [if_neg heq] at hg
      rcases List.mem_cons.mp hg with rfl | htail
      · rw [List.mem_singleton] at hx hy
        rw [hx, hy]
      · exact ih g (by rw [hc]; exact htail) x hx y hy

theorem chunkByChecksum_mem_ne_nil : ∀ l : List DupRow, ∀ g ∈ chunkByChecksum l,
    g ≠ []
  | [] => by simp [chunkByChecksum]
  | [r] => by
    intro g hg
    simp only [chunkByChecksum, List.mem_singleton] at hg
    subst hg
    simp
  | r :: r' :: rs => by
    intro g hg
    have ih := chunkByChecksum_mem_ne_nil (r' :: rs)
    obtain ⟨g0, gs0, hc⟩ := chunkByChecksum_cons r' rs
    unfold chunkByChecksum at hg
    rw [hc] at hg
    by_cases heq : r.checksum = r'.checksum
    · simp only [if_pos heq] at hg
      rcases List.mem_cons.mp hg with rfl | htail
      · simp
      · exact ih g (by rw [hc]; exact List.mem_cons_of_mem _ htail)
    · simp only [if_neg heq] at hg
      rcases List.mem_cons.mp hg with rfl | htail
      · simp
      · exact ih g (by rw [hc]; exact htail)

theorem dupLE_csumData_le {a b : DupRow} (h : dupLE a b) :
    csumData a ≤ csumData b := by
  unfold dupLE dupKey at h
  rcases (Prod.Lex.le_iff _ _).mp h with h1 | ⟨h1, -⟩
  · exact le_of_lt h1
  · exact le_of_eq h1

theorem checksum_eq_of_csumData_eq {a b : DupRow} (ha : a.checksum.isSome = true)
    (hb : b.checksum.isSome = true) (h : csumData a = csumData b) :
    a.checksum = b.checksum := by
  obtain ⟨x, hx⟩ := Option.isSome_iff_exists.mp ha
  obtain ⟨y, hy⟩ := Option.isSome_iff_exists.mp hb
  unfold csumData at h
  rw [hx, hy] at h
  simp only [Option.getD_some] at h
  rw [hx, hy]
  congr 1
  exact congrArg String.mk h

theorem sorted_csumData_le {r : DupRow} {rs : List DupRow}
    (hs : (r :: rs).Sorted dupLE) : ∀ y ∈ r :: rs, csumData r ≤ csumData y := by
  intro y hy
  rcases List.mem_cons.mp hy with rfl | hy'
  · exact le_rfl
  · exact dupLE_csumData_le ((List.sorted_cons.mp hs).1 y hy')

theorem chunkByChecksum_later_ne (r : DupRow) : ∀ (rs : List DupRow),
    (r :: rs).Sorted dupLE → (∀ x ∈ r :: rs, x.checksum.isSome = true) →
    ∀ g gs, chunkByChecksum (r :: rs) = g :: gs →
    ∀ g' ∈ gs, ∀ y ∈ g', y.checksum ≠ r.checksum
  | [] => by
    intro _ _ g gs hc g' hg' y hy hyr
    simp only [chunkByChecksum] at hc
    cases hc
    cases hg'
  | r' :: rs' => by
    intro hs hsome g gs hc g' hg' y hy hyr
    obtain ⟨g0, gs0, hc0⟩ := chunkByChecksum_cons r' rs'
    have hstail : (r' :: rs').Sorted dupLE := (List.sorted_cons.mp hs).2
    have hsometail : ∀ x ∈ r' :: rs', x.checksum.isSome = true := by
      intro x hx
      exact hsome x (List.mem_cons_of_mem _ hx)
    unfold chunkByChecksum at hc
    rw [hc0] at hc
    by_cases heq : r.checksum = r'.checksum
    · simp only [if_pos heq] at hc
      cases hc
      -- gs = gs0
      exact chunkByChecksum_later_ne r' rs' hstail hsometail _ _ hc0 g' hg' y hy
        (by rw [hyr, heq])
    · simp only [if_neg heq] at hc
      cases hc
      -- gs = (r' :: g0) :: gs0
      have hymem : y ∈ r' :: rs' := by
        rcases List.mem_cons.mp hg' with rfl | hg''
        · rw [← chunkByChecksum_flatten (r' :: rs'), hc0]
          exact List.mem_flatten.mpr ⟨r' :: g0, List.mem_cons_self _ _, hy⟩
        · rw [← chunkByChecksum_flatten (r' :: rs'), hc0]
          exact List.mem_flatten.mpr ⟨g', List.mem_cons_of_mem _ hg'', hy⟩
      -- data ordering: csum r ≤ csum r' ≤ csum y = csum r forces r' = r
      have h1 : csumData r ≤ csumData r' :=
        dupLE_csumData_le ((List.sorted_cons.mp hs).1 r' (List.mem_cons_self _ _))
      have h2 : csumData r' ≤ csumData y := sorted_csumData_le hstail y hymem
      have h3 : csumData y = csumData r := by unfold csumData; rw [hyr]
      have h4 : csumData r' = csumData r := le_antisymm (h3 ▸ h2) h1
      exact heq (checksum_eq_of_csumData_eq (hsome r (List.mem_cons_self _ _))
        (hsometail r' (List.mem_cons_self _ _)) h4.symm)

theorem chunkByChecksum_complete : ∀ (l : List DupRow),
    l.Sorted dupLE → (∀ x ∈ l, x.checksum.isSome = true) →
    ∀ g ∈ chunkByChecksum l, ∀ x ∈ l, ∀ y ∈ g,
      x.checksum = y.checksum → x ∈ g
  | [] => by simp [chunkByChecksum]
  | [r] => by
    intro _ _ g hg x hx y hy hxy
    simp only [chunkByChecksum, List.mem_singleton] at hg
    subst hg
    rwa [List.mem_singleton] at hx ⊢
  | r :: r' :: rs => by
    intro hs hsome g hg x hx y hy hxy
    obtain ⟨g0, gs0, hc0⟩ := chunkByChecksum_cons r' rs
    have hstail : (r' :: rs).Sorted dupLE := (List.sorted_cons.mp hs).2
    have hsometail : ∀ z ∈ r' :: rs, z.checksum.isSome = true := by
      intro z hz
      exact hsome z (List.mem_cons_of_mem _ hz)
    have hchunk := chunkByChecksum_complete (r' :: rs) hstail hsometail
    have hflat : ∀ g' ∈ chunkByChecksum (r' :: rs), ∀ z ∈ g', z ∈ r' :: rs := by
      intro g' hg' z hz
      rw [← chunkByChecksum_flatten (r' :: rs)]
      exact List.mem_flatten.mpr ⟨g', hg', hz⟩
    unfold chunkByChecksum at hg
    rw [hc0] at hg
    by_cases heq : r.checksum = r'.checksum
    · simp only [if_pos heq] at hg
      rcases List.mem_cons.mp hg with rfl | htail
      · -- g = r :: r' :: g0 (the head chunk extended with r)
        rcases List.mem_cons.mp hx with hxr | hx'
        · subst hxr
          exact List.mem_cons_self _ _
        · -- x ∈ r' :: rs; show x lands in the head chunk of the tail
          have hycsum : y.checksum = r'.checksum := by
            rcases List.mem_cons.mp hy with rfl | hy'
            · exact heq
            · exact chunkByChecksum_same (r' :: rs) (r' :: g0)
                (by rw [hc0]; exact List.mem_cons_self _ _) y hy' r'
                (List.mem_cons_self _ _)
          have hx0 : x ∈ r' :: g0 :=
            hchunk (r' :: g0) (by rw [hc0]; exact List.mem_cons_self _ _) x hx' r'
              (List.mem_cons_self _ _) (by rw [hxy, hycsum])
          exact List.mem_cons_of_mem _ hx0
      · -- g is a later chunk
        rcases List.mem_cons.mp hx with hxr | hx'
        · -- x = r cannot share a checksum with a later chunk
          subst hxr
          exfalso
          have hlater := chunkByChecksum_later_ne x (r' :: rs) hs hsome
            (x :: r' :: g0) gs0 (by
              unfold chunkByChecksum
              rw [hc0]
              simp only [if_pos heq])
            g htail y hy
          exact hlater hxy.symm
        · exact hchunk g (by rw [hc0]; exact List.mem_cons_of_mem _ htail) x hx' y hy hxy
    · simp only [if_neg heq] at hg
      rcases List.mem_cons.mp hg with rfl | hg'
      · -- g = [r]
        rcases List.mem_cons.mp hx with hxr | hx'
        · subst hxr
          exact List.mem_singleton.mpr rfl
        · -- an element of the tail cannot share r's checksum here
          exfalso
          have hyr : y.checksum = r.checksum := by
            rw [List.mem_singleton] at hy
            rw [hy]
          have h1 : csumData r ≤ csumData r' :=
            dupLE_csumData_le ((List.sorted_cons.mp hs).1 r' (List.mem_cons_self _ _))
          have h2 : csumData r' ≤ csumData x := sorted_csumData_le hstail x hx'
          have h3 : csumData x = csumData r := by
            unfold csumData
            rw [hxy, hyr]
          have h4 : csumData r' = csumData r := le_antisymm (h3 ▸ h2) h1
          exact heq (checksum_eq_of_csumData_eq (hsome r (List.mem_cons_self _ _))
            (hsometail r' (List.mem_cons_self _ _)) h4.symm)
      · rcases List.mem_cons.mp hg' with rfl | hg''
        · -- g = r' :: g0 (head chunk of the tail)
          rcases List.mem_cons.mp hx with hxr | hx'
          · subst hxr
            exfalso
            have hycsum : y.checksum = r'.checksum :=
              chunkByChecksum_same (r' :: rs) (r' :: g0)
                (by rw [hc0]; exact List.mem_cons_self _ _) y hy r'
                (List.mem_cons_self _ _)
            exact heq (by rw [hxy, hycsum])
          · exact hchunk (r' :: g0) (by rw [hc0]; exact List.mem_cons_self _ _)
              x hx' y hy hxy
        · -- g is a later chunk of the tail
          rcases List.mem_cons.mp hx with hxr | hx'
          · subst hxr
            exfalso
            have hyne : y.checksum ≠ r'.checksum :=
              chunkByChecksum_later_ne r' rs hstail hsometail _ _ hc0 g hg'' y hy
            have hymem : y ∈ r' :: rs := hflat g
              (by rw [hc0]; exact List.mem_cons_of_mem _ hg'') y hy
            have h1 : csumData x ≤ csumData r' :=
              dupLE_csumData_le ((List.sorted_cons.mp hs).1 r' (List.mem_cons_self _ _))
            have h2 : csumData r' ≤ csumData y := sorted_csumData_le hstail y hymem
            have h3 : csumData y = csumData x := by
              unfold csumData
              rw [hxy]
            have h4 : csumData r' = csumData y := le_antisymm h2 (h3 ▸ h1)
            exact hyne (checksum_eq_of_csumData_eq (hsometail y hymem)
              (hsometail r' (List.mem_cons_self _ _)) h4.symm)
          · exact hchunk g (by rw [hc0]; exact List.mem_cons_of_mem _ hg'') x hx' y hy hxy

theorem mem_dupJoinRows (catalog : List DupRow) (x : DupRow) :
    x ∈ dupJoinRows catalog ↔
      x ∈ catalog ∧ x.checksum.isSome = true
        ∧ ∃ y ∈ catalog, y.checksum = x.checksum ∧ y.rowid ≠ x.rowid := by
  unfold dupJoinRows
  rw [List.mem_map]
  constructor
  · rintro ⟨⟨a, b⟩, hab, rfl⟩
    rw [List.mem_filter] at hab
    obtain ⟨hmem, hcond⟩ := hab
    have hm : a ∈ catalog ∧ b ∈ catalog := List.mem_product.mp hmem
    simp only [Bool.and_eq_true, beq_iff_eq, bne_iff_ne, ne_eq] at hcond
    obtain ⟨⟨hsome, hcs⟩, hne⟩ := hcond
    exact ⟨hm.1, hsome, b, hm.2, hcs.symm, fun h => hne h.symm⟩
  · rintro ⟨hx, hsome, y, hy, hcs, hne⟩
    refine ⟨(x, y), ?_, rfl⟩
    rw [List.mem_filter]
    refine ⟨List.mem_product.mpr ⟨hx, hy⟩, ?_⟩
    simp only [Bool.and_eq_true, beq_iff_eq, bne_iff_ne, ne_eq]
    exact ⟨⟨hsome, hcs.symm⟩, fun h => hne h.symm⟩

theorem sortedDupRows_sorted (catalog : List DupRow) :
    (sortedDupRows catalog).Sorted dupLE :=
  List.sorted_insertionSort dupLE (dupJoinRows catalog)

theorem sortedDupRows_perm (catalog : List DupRow) :
    (sortedDupRows catalog).Perm (dupJoinRows catalog) :=
  List.perm_insertionSort dupLE (dupJoinRows catalog)

theorem mem_sortedDupRows (catalog : List DupRow) (x : DupRow) :
    x ∈ sortedDupRows catalog ↔
      x ∈ catalog ∧ x.checksum.isSome = true
        ∧ ∃ y ∈ catalog, y.checksum = x.checksum ∧ y.rowid ≠ x.rowid := by
  rw [(sortedDupRows_perm catalog).mem_iff, mem_dupJoinRows]

theorem sortedDupRows_all_some (catalog : List DupRow) :
    ∀ x ∈ sortedDupRows catalog, x.checksum.isSome = true := by
  intro x hx
  exact ((mem_sortedDupRows catalog x).mp hx).2.1

theorem mem_group_mem_sorted (catalog : List DupRow) {g : List DupRow}
    (hg : g ∈ find_duplicates_streaming catalog) {x : DupRow} (hx : x ∈ g) :
    x ∈ sortedDupRows catalog := by
  rw [← chunkByChecksum_flatten (sortedDupRows catalog)]
  exact List.mem_flatten.mpr ⟨g, hg, hx⟩

/-- C2 (amended): the duplicate groups produced by find_duplicates_streaming
are keyed by checksum alone (sizes are not compared): every member of every
group is a catalog record with a non-null checksum, all members of one group
share one checksum, a catalog record appears in some group exactly when
another record with a different rowid carries the same non-null checksum,
every catalog record sharing a group's checksum belongs to that group
(maximality), and every group contains two members with distinct rowids. -/
theorem find_duplicates_streaming_groups (catalog : List DupRow) :
    (∀ g ∈ find_duplicates_streaming catalog, ∀ x ∈ g,
        x ∈ catalog ∧ x.checksum.isSome = true
          ∧ ∀ y ∈ g, x.checksum = y.checksum)
    ∧ (∀ r : DupRow,
        (∃ g ∈ find_duplicates_streaming catalog, r ∈ g)
          ↔ r ∈ catalog ∧ r.checksum.isSome = true
              ∧ ∃ r' ∈ catalog, r'.checksum = r.checksum ∧ r'.rowid ≠ r.rowid)
    ∧ (∀ g ∈ find_duplicates_streaming catalog,
        ∃ x ∈ g, ∃ y ∈ g, x.rowid ≠ y.rowid)
    ∧ (∀ g ∈ find_duplicates_streaming catalog, ∀ x ∈ g, ∀ r ∈ catalog,
        r.checksum = x.checksum → r ∈ g) := by
  have hsorted := sortedDupRows_sorted catalog
  have hsome := sortedDupRows_all_some catalog
  have hmem1 : ∀ g ∈ find_duplicates_streaming catalog, ∀ x ∈ g,
      x ∈ catalog ∧ x.checksum.isSome = true
        ∧ ∀ y ∈ g, x.checksum = y.checksum := by
    intro g hg x hx
    have hxs := mem_group_mem_sorted catalog hg hx
    obtain ⟨hcat, hsm, -⟩ := (mem_sortedDupRows catalog x).mp hxs
    exact ⟨hcat, hsm, fun y hy =>
      chunkByChecksum_same (sortedDupRows catalog) g hg x hx y hy⟩
  have hiff : ∀ r : DupRow,
      (∃ g ∈ find_duplicates_streaming catalog, r ∈ g)
        ↔ r ∈ catalog ∧ r.checksum.isSome = true
            ∧ ∃ r' ∈ catalog, r'.checksum = r.checksum ∧ r'.rowid ≠ r.rowid := by
    intro r
    constructor
    · rintro ⟨g, hg, hr⟩
      exact (mem_sortedDupRows catalog r).mp (mem_group_mem_sorted catalog hg hr)
    · intro h
      have hrs : r ∈ sortedDupRows catalog := (mem_sortedDupRows catalog r).mpr h
      rw [← chunkByChecksum_flatten (sortedDupRows catalog)] at hrs
      obtain ⟨g, hg, hr⟩ := List.mem_flatten.mp hrs
      exact ⟨g, hg, hr⟩
  have hpair : ∀ g ∈ find_duplicates_streaming catalog,
      ∃ x ∈ g, ∃ y ∈ g, x.rowid ≠ y.rowid := by
    intro g hg
    have hne := chunkByChecksum_mem_ne_nil (sortedDupRows catalog) g hg
    obtain ⟨x, hx⟩ := List.exists_mem_of_ne_nil g hne
    have hxs := mem_group_mem_sorted catalog hg hx
    obtain ⟨hcat, hsm, y, hy, hcs, hyne⟩ := (mem_sortedDupRows catalog x).mp hxs
    -- the partner y is itself a join row, and lands in the same chunk g
    have hys : y ∈ sortedDupRows catalog := by
      rw [mem_sortedDupRows]
      refine ⟨hy, ?_, x, hcat, hcs.symm, fun h => hyne h.symm⟩
      rw [hcs]
      exact hsm
    have hyg : y ∈ g :=
      chunkByChecksum_complete (sortedDupRows catalog) hsorted hsome g hg y hys x hx hcs
    exact ⟨x, hx, y, hyg, fun h => hyne h.symm⟩
  refine ⟨hmem1, hiff, hpair, ?_⟩
  intro g hg x hx r hrcat hcs
  have hxs := mem_group_mem_sorted catalog hg hx
  obtain ⟨hxcat, hxsm, -⟩ := (mem_sortedDupRows catalog x).mp hxs
  obtain ⟨a, ha, b, hb, hab⟩ := hpair g hg
  have hacs : a.checksum = x.checksum :=
    chunkByChecksum_same (sortedDupRows catalog) g hg a ha x hx
  have hbcs : b.checksum = x.checksum :=
    chunkByChecksum_same (sortedDupRows catalog) g hg b hb x hx
  have hrsm : r.checksum.isSome = true := by
    rw [hcs]
    exact hxsm
  have hrs : r ∈ sortedDupRows catalog := by
    rw [mem_sortedDupRows]
    refine ⟨hrcat, hrsm, ?_⟩
    by_cases hra : a.rowid = r.rowid
    · refine ⟨b, (hmem1 g hg b hb).1, ?_, ?_⟩
      · rw [hbcs, hcs]
      · rw [← hra]
        exact fun h => hab h.symm
    · exact ⟨a, (hmem1 g hg a ha).1, by rw [hacs, hcs], hra⟩
  exact chunkByChecksum_complete (sortedDupRows catalog) hsorted hsome g hg r hrs x hx hcs

theorem find_duplicates_streaming_groups_witness :
    (⟨0, "p", "a", 1, some "c", 0⟩ : DupRow) ∈
        [⟨0, "p", "a", 1, some "c", 0⟩, ⟨1, "q", "b", 1, some "c", 0⟩]
    ∧ ∃ g ∈ find_duplicates_streaming
        [⟨0, "p", "a", 1, some "c", 0⟩, ⟨1, "q", "b", 1, some "c", 0⟩],
        (⟨0, "p", "a", 1, some "c", 0⟩ : DupRow) ∈ g :=
  ⟨by decide,
    (find_duplicates_streaming_groups
        [⟨0, "p", "a", 1, some "c", 0⟩, ⟨1, "q", "b", 1, some "c", 0⟩]).2.1
      ⟨0, "p", "a", 1, some "c", 0⟩ |>.mpr
      ⟨by decide, by decide,
        ⟨1, "q", "b", 1, some "c", 0⟩, by decide, by decide, by decide⟩⟩

theorem find_duplicates_size_mismatch_counterexample :
    ∃ g ∈ find_duplicates_streaming
        [⟨0, "p", "a", 1, some "c", 0⟩, ⟨1, "q", "b", 2, some "c", 0⟩],
      ∃ x ∈ g, ∃ y ∈ g, x.fileSize ≠ y.fileSize := by
  refine ⟨[⟨0, "p", "a", 1, some "c", 0⟩, ⟨1, "q", "b", 2, some "c", 0⟩], ?_,
    ⟨0, "p", "a", 1, some "c", 0⟩, ?_, ⟨1, "q", "b", 2, some "c", 0⟩, ?_, ?_⟩
  · decide
  · decide
  · decide
  · decide

theorem isSubdirOrSelf_refl (d : String) : isSubdirOrSelf d d = true := by
  unfold isSubdirOrSelf
  exact List.isPrefixOf_iff_prefix.mpr (List.prefix_refl _)

theorem phase1Step_parents (fs : CleanupFS) (st : PageState)
    (d : String) (files : List CatRow)
    (hpar : ∀ x ∈ st.deletedParents, fs.dirCheck x = .dirAbsent) :
    ∀ x ∈ (phase1Step fs st (d, files)).deletedParents,
      fs.dirCheck x = .dirAbsent := by
  intro x hx
  unfold phase1Step at hx
  by_cases hsub : is_subdirectory_of_deleted_paths d st.deletedParents = true
  · simp only [hsub, if_true, mark_directory_files_as_deleted] at hx
    exact hpar x hx
  · simp only [hsub, if_false, Bool.false_eq_true] at hx
    cases hdc : fs.dirCheck d <;>
      simp only [hdc, mark_directory_files_as_deleted] at hx
    · exact hpar x hx
    · rcases List.mem_append.mp hx with h | h
      · exact hpar x h
      · rw [List.mem_singleton] at h
        rw [h]
        exact hdc
    · exact hpar x hx
    · exact hpar x hx

theorem phase1Step_deleted (fs : CleanupFS) (st : PageState)
    (d : String) (files : List CatRow)
    (hpar : ∀ x ∈ st.deletedParents, fs.dirCheck x = .dirAbsent) :
    ∀ pf ∈ (phase1Step fs st (d, files)).deletedFiles,
      pf ∈ st.deletedFiles
      ∨ (∃ d0, isSubdirOrSelf pf.1 d0 = true ∧ fs.dirCheck d0 = .dirAbsent)
      ∨ fs.dirCheck pf.1 = .dirOsError := by
  intro pf hpf
  unfold phase1Step at hpf
  by_cases hsub : is_subdirectory_of_deleted_paths d st.deletedParents = true
  · simp only [hsub, if_true, mark_directory_files_as_deleted] at hpf
    rcases List.mem_append.mp hpf with h | h
    · exact Or.inl h
    · rw [List.mem_map] at h
      obtain ⟨r, -, rfl⟩ := h
      unfold is_subdirectory_of_deleted_paths at hsub
      obtain ⟨d0, hd0, hpre⟩ := List.any_eq_true.mp hsub
      exact Or.inr (Or.inl ⟨d0, hpre, hpar d0 hd0⟩)
  · simp only [hsub, if_false, Bool.false_eq_true] at hpf
    cases hdc : fs.dirCheck d <;>
      simp only [hdc, mark_directory_files_as_deleted] at hpf
    · exact Or.inl hpf
    · rcases List.mem_append.mp hpf with h | h
      · exact Or.inl h
      · rw [List.mem_map] at h
        obtain ⟨r, -, rfl⟩ := h
        exact Or.inr (Or.inl ⟨d, isSubdirOrSelf_refl d, hdc⟩)
    · exact Or.inl hpf
    · rcases List.mem_append.mp hpf with h | h
      · exact Or.inl h
      · rw [List.mem_map] at h
        obtain ⟨r, -, rfl⟩ := h
        exact Or.inr (Or.inr hdc)

theorem phase1_fold_parents (fs : CleanupFS) :
    ∀ (gs : List (String × List CatRow)) (st : PageState),
      (∀ x ∈ st.deletedParents, fs.dirCheck x = .dirAbsent) →
      ∀ x ∈ (gs.foldl (phase1Step fs) st).deletedParents,
        fs.dirCheck x = .dirAbsent := by
  intro gs
  induction gs with
  | nil => intro st h; exact h
  | cons g rest ih =>
    intro st h
    rw [List.foldl_cons]
    exact ih _ (phase1Step_parents fs st g.1 g.2 h)

theorem phase1_fold_deleted (fs : CleanupFS) :
    ∀ (gs : List (String × List CatRow)) (st : PageState),
      (∀ x ∈ st.deletedParents, fs.dirCheck x = .dirAbsent) →
      ∀ pf ∈ (gs.foldl (phase1Step fs) st).deletedFiles,
        pf ∈ st.deletedFiles
        ∨ (∃ d0, isSubdirOrSelf pf.1 d0 = true ∧ fs.dirCheck d0 = .dirAbsent)
        ∨ fs.dirCheck pf.1 = .dirOsError := by
  intro gs
  induction gs with
  | nil => intro st _ pf hpf; exact Or.inl hpf
  | cons g rest ih =>
    intro st h pf hpf
    rw [List.foldl_cons] at hpf
    rcases ih _ (phase1Step_parents fs st g.1 g.2 h) pf hpf with h1 | h1 | h1
    · rcases phase1Step_deleted fs st g.1 g.2 h pf h1 with h2 | h2 | h2
      · exact Or.inl h2
      · exact Or.inr (Or.inl h2)
      · exact Or.inr (Or.inr h2)
    · exact Or.inr (Or.inl h1)
    · exact Or.inr (Or.inr h1)

theorem phase2_fold_deleted (fs : CleanupFS) :
    ∀ (dfs : List (String × String)) (st : PageState),
      ∀ pf ∈ (dfs.foldl (phase2Step fs) st).deletedFiles,
        pf ∈ st.deletedFiles ∨ fs.fileCheck pf.1 pf.2 = .fAbsent := by
  intro dfs
  induction dfs with
  | nil => intro st pf hpf; exact Or.inl hpf
  | cons df rest ih =>
    intro st pf hpf
    rw [List.foldl_cons] at hpf
    rcases ih _ pf hpf with h | h
    · unfold phase2Step at h
      cases hfc : fs.fileCheck df.1 df.2 <;> simp only [hfc] at h
      · exact Or.inl h
      · rcases List.mem_append.mp h with h1 | h1
        · exact Or.inl h1
        · rw [List.mem_singleton] at h1
          rw [h1]
          exact Or.inr hfc
      · exact Or.inl h
    · exact Or.inr h

theorem processGroups_deleted_sources (fs : CleanupFS)
    (groups : List (String × List CatRow)) :
    ∀ pf ∈ (processGroups fs groups).deletedFiles,
      (∃ d0, isSubdirOrSelf pf.1 d0 = true ∧ fs.dirCheck d0 = .dirAbsent)
      ∨ fs.dirCheck pf.1 = .dirOsError
      ∨ fs.fileCheck pf.1 pf.2 = .fAbsent := by
  intro pf hpf
  unfold processGroups at hpf
  rcases phase2_fold_deleted fs _ _ pf hpf with h | h
  · rcases phase1_fold_deleted fs groups emptyPageState
        (by intro x hx; simp [emptyPageState] at hx) pf h with h1 | h1 | h1
    · simp [emptyPageState] at h1
    · exact Or.inl h1
    · exact Or.inr (Or.inl h1)
  · exact Or.inr (Or.inr h)

theorem cleanupLoop_deleted_sources (fs : CleanupFS) (psize : Nat) (dryRun : Bool) :
    ∀ (fuel : Nat) (db : List CatRow) (cursor : Option (Lex (List Char × List Char)))
      (acc : CleanupAcc) (ex : List (String × String)),
      (∀ pf ∈ acc.totalDeleted,
        (∃ d0, isSubdirOrSelf pf.1 d0 = true ∧ fs.dirCheck d0 = .dirAbsent)
        ∨ fs.dirCheck pf.1 = .dirOsError
        ∨ fs.fileCheck pf.1 pf.2 = .fAbsent) →
      ∀ pf ∈ (cleanupLoop fs psize dryRun fuel db cursor acc ex).1.totalDeleted,
        (∃ d0, isSubdirOrSelf pf.1 d0 = true ∧ fs.dirCheck d0 = .dirAbsent)
        ∨ fs.dirCheck pf.1 = .dirOsError
        ∨ fs.fileCheck pf.1 pf.2 = .fAbsent := by
  intro fuel
  induction fuel with
  | zero => intro db cursor acc ex hacc pf hpf; exact hacc pf hpf
  | succ n ih =>
    intro db cursor acc ex hacc pf hpf
    unfold cleanupLoop at hpf
    by_cases hpage : pageQuery db cursor psize = []
    · rw [dif_pos hpage] at hpf
      exact hacc pf hpf
    · rw [dif_neg hpage] at hpf
      refine ih _ _ _ _ ?_ pf hpf
      intro pf' hpf'
      unfold accAddPage at hpf'
      rcases List.mem_append.mp hpf' with h | h
      · exact hacc pf' h
      · exact processGroups_deleted_sources fs _ pf' h

/-- C1 (amended): during cleanup, a catalog record is deleted only if some
ancestor-or-self directory was probed and found absent, or the directory
existence check failed with a non-permission OS error (which the code
treats as a deleted directory), or the file itself was individually
confirmed absent.  Only permission errors on the directory check are
routed to individual per-file existence checks. -/
theorem cleanup_deletes_only_confirmed (fs : CleanupFS) (db : List CatRow)
    (psize : Nat) (dryRun : Bool) :
    ∀ pf ∈ (cleanup_deleted_files fs db psize dryRun).deleted,
      (∃ d0, isSubdirOrSelf pf.1 d0 = true ∧ fs.dirCheck d0 = .dirAbsent)
      ∨ fs.dirCheck pf.1 = .dirOsError
      ∨ fs.fileCheck pf.1 pf.2 = .fAbsent := by
  intro pf hpf
  unfold cleanup_deleted_files at hpf
  by_cases hlen : db.length = 0
  · rw [if_pos hlen] at hpf
    simp at hpf
  · rw [if_neg hlen] at hpf
    simp only at hpf
    refine cleanupLoop_deleted_sources fs psize dryRun _ db none emptyCleanupAcc []
      ?_ pf hpf
    intro pf' hpf'
    simp [emptyCleanupAcc] at hpf'

theorem cleanup_deletes_only_confirmed_witness :
    (("/a", "f") ∈ (cleanup_deleted_files
        ⟨fun _ => .dirAbsent, fun _ _ => .fExists⟩
        [⟨"/a", "f", 1, 0⟩] 10 false).deleted)
    ∧ ((∃ d0, isSubdirOrSelf "/a" d0 = true
          ∧ DirCheck.dirAbsent = DirCheck.dirAbsent)
        ∨ DirCheck.dirAbsent = DirCheck.dirOsError
        ∨ FileCheck.fExists = FileCheck.fAbsent) :=
  ⟨by decide,
    cleanup_deletes_only_confirmed ⟨fun _ => .dirAbsent, fun _ _ => .fExists⟩
      [⟨"/a", "f", 1, 0⟩] 10 false ("/a", "f") (by decide)⟩

theorem cleanup_os_error_treated_as_deleted_counterexample :
    ((cleanup_deleted_files ⟨fun _ => .dirOsError, fun _ _ => .fExists⟩
        [⟨"/x", "f", 1, 0⟩] 10 false).deleted = [("/x", "f")])
    ∧ (cleanup_deleted_files ⟨fun _ => .dirOsError, fun _ _ => .fExists⟩
        [⟨"/x", "f", 1, 0⟩] 10 false).fileProbes = []
    ∧ (⟨fun _ => .dirOsError, fun _ _ => .fExists⟩ : CleanupFS).dirCheck "/x"
        = .dirOsError := by
  refine ⟨?_, ?_, rfl⟩
  · decide
  · decide

theorem isSubdirOrSelf_trans {a b c : String} (h1 : isSubdirOrSelf a b = true)
    (h2 : isSubdirOrSelf b c = true) : isSubdirOrSelf a c = true := by
  unfold isSubdirOrSelf at h1 h2 ⊢
  rw [List.isPrefixOf_iff_prefix] at h1 h2 ⊢
  exact h2.trans h1

theorem phase1Step_parents_mono (fs : CleanupFS) (st : PageState)
    (g : String × List CatRow) :
    ∀ x ∈ st.deletedParents, x ∈ (phase1Step fs st g).deletedParents := by
  intro x hx
  unfold phase1Step
  by_cases hsub : is_subdirectory_of_deleted_paths g.1 st.deletedParents = true
  · simp only [hsub, if_true, mark_directory_files_as_deleted]
    exact hx
  · simp only [hsub, if_false, Bool.false_eq_true]
    cases hdc : fs.dirCheck g.1 <;>
      simp only [mark_directory_files_as_deleted]
    · exact hx
    · exact List.mem_append_left _ hx
    · exact hx
    · exact hx

theorem phase1_fold_parents_mono (fs : CleanupFS) :
    ∀ (gs : List (String × List CatRow)) (st : PageState),
      ∀ x ∈ st.deletedParents, x ∈ (gs.foldl (phase1Step fs) st).deletedParents := by
  intro gs
  induction gs with
  | nil => intro st x hx; exact hx
  | cons g rest ih =>
    intro st x hx
    rw [List.foldl_cons]
    exact ih _ x (phase1Step_parents_mono fs st g x hx)

theorem phase1_fold_covering (fs : CleanupFS) :
    ∀ (gs : List (String × List CatRow)) (st : PageState) (d0 : String)
      (files0 : List CatRow), (d0, files0) ∈ gs → fs.dirCheck d0 = .dirAbsent →
      ∃ a ∈ (gs.foldl (phase1Step fs) st).deletedParents,
        isSubdirOrSelf d0 a = true := by
  intro gs
  induction gs with
  | nil => intro st d0 files0 h; cases h
  | cons g rest ih =>
    intro st d0 files0 hmem hdc
    rw [List.foldl_cons]
    rcases List.mem_cons.mp hmem with rfl | hmem'
    · -- the head group is (d0, files0)
      by_cases hsub : is_subdirectory_of_deleted_paths d0 st.deletedParents = true
      · unfold is_subdirectory_of_deleted_paths at hsub
        obtain ⟨a, ha, hpre⟩ := List.any_eq_true.mp hsub
        refine ⟨a, ?_, hpre⟩
        refine phase1_fold_parents_mono fs rest _ a ?_
        exact phase1Step_parents_mono fs st (d0, files0) a ha
      · refine ⟨d0, ?_, isSubdirOrSelf_refl d0⟩
        refine phase1_fold_parents_mono fs rest _ d0 ?_
        unfold phase1Step
        simp only [hsub, if_false, Bool.false_eq_true, hdc,
          mark_directory_files_as_deleted]
        exact List.mem_append_right _ (List.mem_singleton.mpr rfl)
    · obtain ⟨a, ha, hpre⟩ := ih (phase1Step fs st g) d0 files0 hmem' hdc
      exact ⟨a, ha, hpre⟩

theorem phase1Step_probes (fs : CleanupFS) (st : PageState)
    (g : String × List CatRow) :
    ∀ x ∈ (phase1Step fs st g).dirProbes, x ∈ st.dirProbes ∨ x = g.1 := by
  intro x hx
  unfold phase1Step at hx
  by_cases hsub : is_subdirectory_of_deleted_paths g.1 st.deletedParents = true
  · simp only [hsub, if_true, mark_directory_files_as_deleted] at hx
    exact Or.inl hx
  · simp only [hsub, if_false, Bool.false_eq_true] at hx
    cases hdc : fs.dirCheck g.1 <;>
      simp only [hdc, mark_directory_files_as_deleted] at hx <;>
      rcases List.mem_append.mp hx with h | h
    · exact Or.inl h
    · exact Or.inr (List.mem_singleton.mp h)
    · exact Or.inl h
    · exact Or.inr (List.mem_singleton.mp h)
    · exact Or.inl h
    · exact Or.inr (List.mem_singleton.mp h)
    · exact Or.inl h
    · exact Or.inr (List.mem_singleton.mp h)

theorem phase1_fold_probes (fs : CleanupFS) :
    ∀ (gs : List (String × List CatRow)) (st : PageState),
      ∀ x ∈ (gs.foldl (phase1Step fs) st).dirProbes,
        x ∈ st.dirProbes ∨ x ∈ gs.map Prod.fst := by
  intro gs
  induction gs with
  | nil => intro st x hx; exact Or.inl hx
  | cons g rest ih =>
    intro st x hx
    rw [List.foldl_cons] at hx
    rcases ih _ x hx with h | h
    · rcases phase1Step_probes fs st g x h with h1 | h1
      · exact Or.inl h1
      · exact Or.inr (by rw [h1, List.map_cons]; exact List.mem_cons_self _ _)
    · exact Or.inr (by rw [List.map_cons]; exact List.mem_cons_of_mem _ h)

theorem phase1Step_indiv (fs : CleanupFS) (st : PageState)
    (g : String × List CatRow) :
    ∀ e ∈ (phase1Step fs st g).dirsIndiv, e ∈ st.dirsIndiv ∨ e = g := by
  intro e he
  unfold phase1Step at he
  by_cases hsub : is_subdirectory_of_deleted_paths g.1 st.deletedParents = true
  · simp only [hsub, if_true, mark_directory_files_as_deleted] at he
    exact Or.inl he
  · simp only [hsub, if_false, Bool.false_eq_true] at he
    cases hdc : fs.dirCheck g.1 <;>
      simp only [hdc, mark_directory_files_as_deleted] at he
    · rcases List.mem_append.mp he with h | h
      · exact Or.inl h
      · rw [List.mem_singleton] at h
        rw [h]
        exact Or.inr rfl
    · exact Or.inl he
    · rcases List.mem_append.mp he with h | h
      · exact Or.inl h
      · rw [List.mem_singleton] at h
        rw [h]
        exact Or.inr rfl
    · exact Or.inl he

theorem phase1_fold_indiv (fs : CleanupFS) :
    ∀ (gs : List (String × List CatRow)) (st : PageState),
      ∀ e ∈ (gs.foldl (phase1Step fs) st).dirsIndiv,
        e ∈ st.dirsIndiv ∨ e ∈ gs := by
  intro gs
  induction gs with
  | nil => intro st e he; exact Or.inl he
  | cons g rest ih =>
    intro st e he
    rw [List.foldl_cons] at he
    rcases ih _ e he with h | h
    · rcases phase1Step_indiv fs st g e h with h1 | h1
      · exact Or.inl h1
      · rw [h1]
        exact Or.inr (List.mem_cons_self _ _)
    · exact Or.inr (List.mem_cons_of_mem _ h)

theorem phase1Step_deleted_mono (fs : CleanupFS) (st : PageState)
    (g : String × List CatRow) :
    ∀ pf ∈ st.deletedFiles, pf ∈ (phase1Step fs st g).deletedFiles := by
  intro pf hpf
  unfold phase1Step
  by_cases hsub : is_subdirectory_of_deleted_paths g.1 st.deletedParents = true
  · simp only [hsub, if_true, mark_directory_files_as_deleted]
    exact List.mem_append_left _ hpf
  · simp only [hsub, if_false, Bool.false_eq_true]
    cases hdc : fs.dirCheck g.1 <;>
      simp only [mark_directory_files_as_deleted]
    · exact hpf
    · exact List.mem_append_left _ hpf
    · exact hpf
    · exact List.mem_append_left _ hpf

theorem phase1_fold_deleted_mono (fs : CleanupFS) :
    ∀ (gs : List (String × List CatRow)) (st : PageState),
      ∀ pf ∈ st.deletedFiles, pf ∈ (gs.foldl (phase1Step fs) st).deletedFiles := by
  intro gs
  induction gs with
  | nil => intro st pf hpf; exact hpf
  | cons g rest ih =>
    intro st pf hpf
    rw [List.foldl_cons]
    exact ih _ pf (phase1Step_deleted_mono fs st g pf hpf)

theorem phase1Step_fileProbes (fs : CleanupFS) (st : PageState)
    (g : String × List CatRow) :
    (phase1Step fs st g).fileProbes = st.fileProbes := by
  unfold phase1Step
  by_cases hsub : is_subdirectory_of_deleted_paths g.1 st.deletedParents = true
  · simp only [hsub, if_true, mark_directory_files_as_deleted]
  · simp only [hsub, if_false, Bool.false_eq_true]
    cases hdc : fs.dirCheck g.1 <;>
      simp only [mark_directory_files_as_deleted]

theorem phase1_fold_fileProbes (fs : CleanupFS) :
    ∀ (gs : List (String × List CatRow)) (st : PageState),
      (gs.foldl (phase1Step fs) st).fileProbes = st.fileProbes := by
  intro gs
  induction gs with
  | nil => intro st; rfl
  | cons g rest ih =>
    intro st
    rw [List.foldl_cons, ih, phase1Step_fileProbes]

theorem phase2Step_dirProbes (fs : CleanupFS) (st : PageState)
    (df : String × String) :
    (phase2Step fs st df).dirProbes = st.dirProbes := by
  unfold phase2Step
  cases hfc : fs.fileCheck df.1 df.2 <;> simp

theorem phase2_fold_dirProbes (fs : CleanupFS) :
    ∀ (dfs : List (String × String)) (st : PageState),
      (dfs.foldl (phase2Step fs) st).dirProbes = st.dirProbes := by
  intro dfs
  induction dfs with
  | nil => intro st; rfl
  | cons df rest ih =>
    intro st
    rw [List.foldl_cons, ih, phase2Step_dirProbes]

theorem phase2Step_deleted_mono (fs : CleanupFS) (st : PageState)
    (df : String × String) :
    ∀ pf ∈ st.deletedFiles, pf ∈ (phase2Step fs st df).deletedFiles := by
  intro pf hpf
  unfold phase2Step
  cases hfc : fs.fileCheck df.1 df.2 <;> simp only
  · exact hpf
  · exact List.mem_append_left _ hpf
  · exact hpf

theorem phase2_fold_deleted_mono (fs : CleanupFS) :
    ∀ (dfs : List (String × String)) (st : PageState),
      ∀ pf ∈ st.deletedFiles, pf ∈ (dfs.foldl (phase2Step fs) st).deletedFiles := by
  intro dfs
  induction dfs with
  | nil => intro st pf hpf; exact hpf
  | cons df rest ih =>
    intro st pf hpf
    rw [List.foldl_cons]
    exact ih _ pf (phase2Step_deleted_mono fs st df pf hpf)

theorem phase2_fold_fileProbes (fs : CleanupFS) :
    ∀ (dfs : List (String × String)) (st : PageState),
      ∀ pf ∈ (dfs.foldl (phase2Step fs) st).fileProbes,
        pf ∈ st.fileProbes ∨ pf ∈ dfs := by
  intro dfs
  induction dfs with
  | nil => intro st pf hpf; exact Or.inl hpf
  | cons df rest ih =>
    intro st pf hpf
    rw [List.foldl_cons] at hpf
    rcases ih _ pf hpf with h | h
    · unfold phase2Step at h
      cases hfc : fs.fileCheck df.1 df.2 <;> simp only [hfc] at h <;>
        rcases List.mem_append.mp h with h1 | h1
      · exact Or.inl h1
      · exact Or.inr (by rw [List.mem_singleton.mp h1]; exact List.mem_cons_self _ _)
      · exact Or.inl h1
      · exact Or.inr (by rw [List.mem_singleton.mp h1]; exact List.mem_cons_self _ _)
      · exact Or.inl h1
      · exact Or.inr (by rw [List.mem_singleton.mp h1]; exact List.mem_cons_self _ _)
    · exact Or.inr (List.mem_cons_of_mem _ h)

theorem remainingFiles_dir (dirsIndiv : List (String × List CatRow)) :
    ∀ pf ∈ remainingFiles dirsIndiv, ∃ e ∈ dirsIndiv, pf.1 = e.1 := by
  intro pf hpf
  unfold remainingFiles at hpf
  rw [List.mem_flatMap] at hpf
  obtain ⟨e, he, hpf'⟩ := hpf
  rw [List.mem_map] at hpf'
  obtain ⟨r, -, rfl⟩ := hpf'
  exact ⟨e, he, rfl⟩

/-- C7 (amended): within one page of a cleanup run, a directory that is a
descendant of a directory confirmed absent earlier in the same page is
short-circuited: all of its records are marked deleted, it receives no
directory-existence probe, and none of its files receives an individual
existence probe.  (The set of confirmed-deleted parents is reset at each
page boundary, so the guarantee is per page, not per run.) -/
theorem hierarchical_short_circuit_within_page (fs : CleanupFS)
    (g1 g2 g3 : List (String × List CatRow)) (d0 d : String)
    (f0 fd : List CatRow)
    (hnd : ((g1 ++ (d0, f0) :: g2 ++ (d, fd) :: g3).map Prod.fst).Nodup)
    (h0 : fs.dirCheck d0 = .dirAbsent)
    (hsub : isSubdirOrSelf d d0 = true) :
    d ∉ (processGroups fs (g1 ++ (d0, f0) :: g2 ++ (d, fd) :: g3)).dirProbes
    ∧ (∀ r ∈ fd, (d, r.filename) ∈
        (processGroups fs (g1 ++ (d0, f0) :: g2 ++ (d, fd) :: g3)).deletedFiles)
    ∧ ∀ fn, (d, fn) ∉
        (processGroups fs (g1 ++ (d0, f0) :: g2 ++ (d, fd) :: g3)).fileProbes := by
  -- key-disjointness facts
  have hkeys : (g1 ++ (d0, f0) :: g2 ++ (d, fd) :: g3).map Prod.fst
      = (g1 ++ (d0, f0) :: g2).map Prod.fst ++ d :: g3.map Prod.fst := by
    simp
  rw [hkeys] at hnd
  have htailnd : (d :: g3.map Prod.fst).Nodup :=
    hnd.sublist (List.sublist_append_right _ _)
  have hd_post : d ∉ g3.map Prod.fst := (List.nodup_cons.mp htailnd).1
  have hdisj := List.disjoint_of_nodup_append hnd
  have hd_pre : d ∉ (g1 ++ (d0, f0) :: g2).map Prod.fst := by
    intro hmem
    exact absurd (List.mem_cons_self d _) (List.disjoint_left.mp hdisj hmem)
  -- split the phase-1 fold at the target directory
  have hsplit : g1 ++ (d0, f0) :: g2 ++ (d, fd) :: g3
      = (g1 ++ (d0, f0) :: g2) ++ (d, fd) :: g3 := by
    simp
  set pre := g1 ++ (d0, f0) :: g2 with hpre
  set st1 := pre.foldl (phase1Step fs) emptyPageState with hst1
  -- at the target's turn the short-circuit fires
  have hcov : ∃ a ∈ st1.deletedParents, isSubdirOrSelf d0 a = true :=
    phase1_fold_covering fs pre emptyPageState d0 f0
      (by rw [hpre]; exact List.mem_append_right _ (List.mem_cons_self _ _)) h0
  obtain ⟨a, ha, hpre0⟩ := hcov
  have hshort : is_subdirectory_of_deleted_paths d st1.deletedParents = true := by
    unfold is_subdirectory_of_deleted_paths
    rw [List.any_eq_true]
    exact ⟨a, ha, isSubdirOrSelf_trans hsub hpre0⟩
  set st2 := phase1Step fs st1 (d, fd) with hst2
  have hst2probes : st2.dirProbes = st1.dirProbes := by
    rw [hst2]
    unfold phase1Step
    simp only [hshort, if_true, mark_directory_files_as_deleted]
  have hst2indiv : st2.dirsIndiv = st1.dirsIndiv := by
    rw [hst2]
    unfold phase1Step
    simp only [hshort, if_true, mark_directory_files_as_deleted]
  have hst2fileProbes : st2.fileProbes = st1.fileProbes := by
    rw [hst2]
    unfold phase1Step
    simp only [hshort, if_true, mark_directory_files_as_deleted]
  have hst2deleted : ∀ r ∈ fd, (d, r.filename) ∈ st2.deletedFiles := by
    intro r hr
    rw [hst2]
    unfold phase1Step
    simp only [hshort, if_true, mark_directory_files_as_deleted]
    exact List.mem_append_right _ (List.mem_map.mpr ⟨r, hr, rfl⟩)
  set st3 := g3.foldl (phase1Step fs) st2 with hst3
  have hfold : (g1 ++ (d0, f0) :: g2 ++ (d, fd) :: g3).foldl (phase1Step fs)
      emptyPageState = st3 := by
    rw [hsplit, List.foldl_append, List.foldl_cons]
  have hfinal : processGroups fs (g1 ++ (d0, f0) :: g2 ++ (d, fd) :: g3)
      = (remainingFiles st3.dirsIndiv).foldl (phase2Step fs) st3 := by
    unfold processGroups
    rw [hfold]
  refine ⟨?_, ?_, ?_⟩
  · -- no directory probe for d
    rw [hfinal]
    intro hmem
    rw [phase2_fold_dirProbes] at hmem
    rcases phase1_fold_probes fs g3 st2 d hmem with h | h
    · rw [hst2probes] at h
      rcases phase1_fold_probes fs pre emptyPageState d h with h1 | h1
      · simp [emptyPageState] at h1
      · exact hd_pre h1
    · exact hd_post h
  · -- all of fd's records marked deleted
    intro r hr
    rw [hfinal]
    refine phase2_fold_deleted_mono fs _ st3 _ ?_
    exact phase1_fold_deleted_mono fs g3 st2 _ (hst2deleted r hr)
  · -- no individual file probe for d's files
    intro fn
    rw [hfinal]
    intro hmem
    rcases phase2_fold_fileProbes fs _ st3 (d, fn) hmem with h | h
    · rw [hst3, phase1_fold_fileProbes, hst2fileProbes, hst1,
        phase1_fold_fileProbes] at h
      simp [emptyPageState] at h
    · obtain ⟨e, he, heq⟩ := remainingFiles_dir st3.dirsIndiv (d, fn) h
      rcases phase1_fold_indiv fs g3 st2 e he with h1 | h1
      · rw [hst2indiv] at h1
        rcases phase1_fold_indiv fs pre emptyPageState e h1 with h2 | h2
        · simp [emptyPageState] at h2
        · apply hd_pre
          rw [List.mem_map]
          exact ⟨e, h2, heq.symm⟩
      · apply hd_post
        rw [List.mem_map]
        exact ⟨e, h1, heq.symm⟩

theorem hierarchical_short_circuit_within_page_witness :
    (([("/a", [⟨"/a", "f", 1, 0⟩]), ("/a/b", [⟨"/a/b", "g", 1, 0⟩])] :
        List (String × List CatRow)).map Prod.fst).Nodup
    ∧ "/a/b" ∉ (processGroups ⟨fun _ => .dirAbsent, fun _ _ => .fExists⟩
        ([("/a", [⟨"/a", "f", 1, 0⟩]), ("/a/b", [⟨"/a/b", "g", 1, 0⟩])] :
          List (String × List CatRow))).dirProbes :=
  ⟨by decide,
    (hierarchical_short_circuit_within_page
        ⟨fun _ => .dirAbsent, fun _ _ => .fExists⟩ [] [] [] "/a" "/a/b"
        [⟨"/a", "f", 1, 0⟩] [⟨"/a/b", "g", 1, 0⟩]
        (by decide) rfl (by decide)).1⟩

theorem hierarchical_short_circuit_page_reset_counterexample :
    (cleanup_deleted_files ⟨fun _ => .dirAbsent, fun _ _ => .fExists⟩
        [⟨"/a", "f", 1, 0⟩, ⟨"/a/b", "g", 1, 0⟩] 1 false).dirProbes
      = ["/a", "/a/b"]
    ∧ isSubdirOrSelf "/a/b" "/a" = true
    ∧ (⟨fun _ => .dirAbsent, fun _ _ => .fExists⟩ : CleanupFS).dirCheck "/a"
        = .dirAbsent := by
  refine ⟨?_, ?_, rfl⟩
  · decide
  · decide

theorem delete_files_dry (db : List CatRow) (records : List (String × String)) :
    delete_files_from_database db records true = (db, []) := by
  unfold delete_files_from_database
  by_cases h : records = [] <;> simp [h]

theorem delete_files_wet_db (db : List CatRow) (records : List (String × String)) :
    (delete_files_from_database db records false).1
      = db.filter (fun r => decide ((r.path, r.filename) ∉ records)) := by
  unfold delete_files_from_database
  by_cases h : records = []
  · subst h
    simp
  · simp [h]

theorem cleanupLoop_dry_frame (fs : CleanupFS) (psize : Nat) :
    ∀ (fuel : Nat) (db : List CatRow) (cursor : Option (Lex (List Char × List Char)))
      (acc : CleanupAcc) (ex : List (String × String)),
      (cleanupLoop fs psize true fuel db cursor acc ex).2.2 = db
      ∧ (cleanupLoop fs psize true fuel db cursor acc ex).2.1 = ex := by
  intro fuel
  induction fuel with
  | zero => intro db cursor acc ex; exact ⟨rfl, rfl⟩
  | succ n ih =>
    intro db cursor acc ex
    unfold cleanupLoop
    by_cases hpage : pageQuery db cursor psize = []
    · rw [dif_pos hpage]
      exact ⟨rfl, rfl⟩
    · rw [dif_neg hpage]
      rw [delete_files_dry]
      simp only [List.append_nil]
      exact ih db _ _ ex

theorem sorted_key_le_getLast {α : Type} {β : Type} [Preorder β] (key : α → β) :
    ∀ (l : List α), l.Sorted (fun a b => key a ≤ key b) →
      ∀ (h : l ≠ []) (r), r ∈ l → key r ≤ key (l.getLast h)
  | [] => by intro _ h; cases h rfl
  | [a] => by
    intro _ _ r hr
    rw [List.mem_singleton] at hr
    subst hr
    exact le_rfl
  | a :: b :: t => by
    intro hs h r hr
    have hlast : (a :: b :: t).getLast h = (b :: t).getLast (by simp) :=
      List.getLast_cons (by simp)
    rw [hlast]
    rcases List.mem_cons.mp hr with rfl | hr'
    · exact (List.sorted_cons.mp hs).1 _ (List.getLast_mem _)
    · exact sorted_key_le_getLast key (b :: t) (List.sorted_cons.mp hs).2 (by simp) r hr'

theorem pageQuery_sorted (db : List CatRow)
    (cursor : Option (Lex (List Char × List Char))) (psize : Nat) :
    (pageQuery db cursor psize).Sorted rowLE := by
  unfold pageQuery
  exact (List.sorted_insertionSort rowLE _).sublist (List.take_sublist _ _)

theorem mem_pageQuery_cursor (db : List CatRow)
    (cursor : Option (Lex (List Char × List Char))) (psize : Nat) :
    ∀ r ∈ pageQuery db cursor psize, cursorLtB cursor (rowKey r) = true := by
  intro r hr
  unfold pageQuery at hr
  have hr1 : r ∈ (db.filter (fun x => cursorLtB cursor (rowKey x))).insertionSort rowLE :=
    (List.take_sublist _ _).subset hr
  rw [(List.perm_insertionSort rowLE _).mem_iff] at hr1
  exact (List.mem_filter.mp hr1).2

theorem fold_addToGroup_sources :
    ∀ (l : List CatRow) (acc : List (String × List CatRow)) (P : CatRow → Prop),
      (∀ e ∈ acc, ∀ r ∈ e.2, P r ∧ r.path = e.1) → (∀ x ∈ l, P x) →
      ∀ e ∈ l.foldl addToGroup acc, ∀ r ∈ e.2, P r ∧ r.path = e.1 := by
  intro l
  induction l with
  | nil => intro acc P hacc _ e he; exact hacc e he
  | cons x rest ih =>
    intro acc P hacc hl e he
    rw [List.foldl_cons] at he
    refine ih _ P ?_ (fun z hz => hl z (List.mem_cons_of_mem _ hz)) e he
    -- addToGroup preserves the invariant
    have hx : P x := hl x (List.mem_cons_self _ _)
    clear he ih hl
    induction acc with
    | nil =>
      intro e he r hr
      unfold addToGroup at he
      rw [List.mem_singleton] at he
      subst he
      rw [List.mem_singleton] at hr
      subst hr
      exact ⟨hx, rfl⟩
    | cons a arest ihacc =>
      intro e he r hr
      unfold addToGroup at he
      cases a with
      | mk ad ars =>
        by_cases had : ad = x.path
        · simp only [had, if_pos rfl] at he
          rcases List.mem_cons.mp he with rfl | he'
          · rcases List.mem_append.mp hr with h1 | h1
            · have hrr := hacc (ad, ars) (List.mem_cons_self _ _) r h1
              exact ⟨hrr.1, by rw [hrr.2, had]⟩
            · rw [List.mem_singleton] at h1
              subst h1
              exact ⟨hx, rfl⟩
          · exact hacc e (List.mem_cons_of_mem _ he') r hr
        · simp only [if_neg had] at he
          rcases List.mem_cons.mp he with rfl | he'
          · exact hacc (ad, ars) (List.mem_cons_self _ _) r hr
          · exact ihacc (fun z hz => hacc z (List.mem_cons_of_mem _ hz)) e he' r hr

theorem files_by_directory_sources (page : List CatRow) :
    ∀ e ∈ files_by_directory page, ∀ r ∈ e.2, r ∈ page ∧ r.path = e.1 := by
  unfold files_by_directory
  exact fold_addToGroup_sources page [] (fun r => r ∈ page)
    (by intro e he; cases he) (fun x hx => hx)

theorem phase1_fold_deleted_sourced (fs : CleanupFS) :
    ∀ (gs : List (String × List CatRow)) (st : PageState)
      (P : (String × String) → Prop),
      (∀ pf ∈ st.deletedFiles, P pf) →
      (∀ e ∈ gs, ∀ r ∈ e.2, P (e.1, r.filename)) →
      ∀ pf ∈ (gs.foldl (phase1Step fs) st).deletedFiles, P pf := by
  intro gs
  induction gs with
  | nil => intro st P hst _ pf hpf; exact hst pf hpf
  | cons g rest ih =>
    intro st P hst hgs pf hpf
    rw [List.foldl_cons] at hpf
    refine ih _ P ?_ (fun e he => hgs e (List.mem_cons_of_mem _ he)) pf hpf
    intro pf' hpf'
    unfold phase1Step at hpf'
    by_cases hsub : is_subdirectory_of_deleted_paths g.1 st.deletedParents = true
    · simp only [hsub, if_true, mark_directory_files_as_deleted] at hpf'
      rcases List.mem_append.mp hpf' with h | h
      · exact hst pf' h
      · rw [List.mem_map] at h
        obtain ⟨r, hr, rfl⟩ := h
        exact hgs g (List.mem_cons_self _ _) r hr
    · simp only [hsub, if_false, Bool.false_eq_true] at hpf'
      cases hdc : fs.dirCheck g.1 <;>
        simp only [hdc, mark_directory_files_as_deleted] at hpf'
      · exact hst pf' hpf'
      · rcases List.mem_append.mp hpf' with h | h
        · exact hst pf' h
        · rw [List.mem_map] at h
          obtain ⟨r, hr, rfl⟩ := h
          exact hgs g (List.mem_cons_self _ _) r hr
      · exact hst pf' hpf'
      · rcases List.mem_append.mp hpf' with h | h
        · exact hst pf' h
        · rw [List.mem_map] at h
          obtain ⟨r, hr, rfl⟩ := h
          exact hgs g (List.mem_cons_self _ _) r hr

theorem phase2_fold_deleted_sourced (fs : CleanupFS) :
    ∀ (dfs : List (String × String)) (st : PageState)
      (P : (String × String) → Prop),
      (∀ pf ∈ st.deletedFiles, P pf) → (∀ pf ∈ dfs, P pf) →
      ∀ pf ∈ (dfs.foldl (phase2Step fs) st).deletedFiles, P pf := by
  intro dfs
  induction dfs with
  | nil => intro st P hst _ pf hpf; exact hst pf hpf
  | cons df rest ih =>
    intro st P hst hdfs pf hpf
    rw [List.foldl_cons] at hpf
    refine ih _ P ?_ (fun z hz => hdfs z (List.mem_cons_of_mem _ hz)) pf hpf
    intro pf' hpf'
    unfold phase2Step at hpf'
    cases hfc : fs.fileCheck df.1 df.2 <;> simp only [hfc] at hpf'
    · exact hst pf' hpf'
    · rcases List.mem_append.mp hpf' with h | h
      · exact hst pf' h
      · rw [List.mem_singleton] at h
        subst h
        exact hdfs _ (List.mem_cons_self _ _)
    · exact hst pf' hpf'

theorem processPage_deleted_sourced (fs : CleanupFS) (page : List CatRow) :
    ∀ pf ∈ (processPage fs page).deletedFiles,
      ∃ r ∈ page, (r.path, r.filename) = pf := by
  intro pf hpf
  unfold processPage processGroups at hpf
  have hgroups : ∀ e ∈ files_by_directory page, ∀ r ∈ e.2,
      (fun pf : String × String => ∃ r ∈ page, (r.path, r.filename) = pf)
        (e.1, r.filename) := by
    intro e he r hr
    obtain ⟨hrp, hpath⟩ := files_by_directory_sources page e he r hr
    exact ⟨r, hrp, by rw [hpath]⟩
  have hindiv : ∀ e ∈ (List.foldl (phase1Step fs) emptyPageState
      (files_by_directory page)).dirsIndiv, ∀ r ∈ e.2,
      (fun pf : String × String => ∃ r ∈ page, (r.path, r.filename) = pf)
        (e.1, r.filename) := by
    intro e he r hr
    rcases phase1_fold_indiv fs (files_by_directory page) emptyPageState e he with h | h
    · simp [emptyPageState] at h
    · exact hgroups e h r hr
  refine phase2_fold_deleted_sourced fs _ _
      (fun pf : String × String => ∃ r ∈ page, (r.path, r.filename) = pf)
      ?_ ?_ pf hpf
  · intro pf' hpf'
    refine phase1_fold_deleted_sourced fs (files_by_directory page) emptyPageState
      (fun pf : String × String => ∃ r ∈ page, (r.path, r.filename) = pf)
      ?_ hgroups pf' hpf'
    intro pf'' hpf''
    simp [emptyPageState] at hpf''
  · intro pf' hpf'
    unfold remainingFiles at hpf'
    rw [List.mem_flatMap] at hpf'
    obtain ⟨e, he, hm⟩ := hpf'
    rw [List.mem_map] at hm
    obtain ⟨r, hr, rfl⟩ := hm
    exact hindiv e he r hr

theorem pageQuery_filter_stable (db : List CatRow) (del : List (String × String))
    (cursor : Option (Lex (List Char × List Char))) (psize : Nat)
    (hdel : ∀ pf ∈ del, cursorLtB cursor (pairKey pf) = false) :
    pageQuery (db.filter (fun r => decide ((r.path, r.filename) ∉ del)))
        cursor psize
      = pageQuery db cursor psize := by
  unfold pageQuery
  have hfilter : (db.filter (fun r => decide ((r.path, r.filename) ∉ del))).filter
        (fun r => cursorLtB cursor (rowKey r))
      = db.filter (fun r => cursorLtB cursor (rowKey r)) := by
    rw [List.filter_filter]
    apply List.filter_congr
    intro r hr
    cases hc : cursorLtB cursor (rowKey r) with
    | false => exact Bool.false_and _
    | true =>
      rw [Bool.true_and, decide_eq_true_eq]
      intro hin
      have hfalse : cursorLtB cursor (pairKey (r.path, r.filename)) = false :=
        hdel (r.path, r.filename) hin
      have : cursorLtB cursor (rowKey r) = false := hfalse
      rw [hc] at this
      cases this
  rw [hfilter]

theorem cleanupLoop_dry_wet (fs : CleanupFS) (psize : Nat) :
    ∀ (fuel : Nat) (db : List CatRow) (del : List (String × String))
      (cursor : Option (Lex (List Char × List Char))) (acc : CleanupAcc)
      (exD exW : List (String × String)),
      (∀ pf ∈ del, cursorLtB cursor (pairKey pf) = false) →
      (cleanupLoop fs psize true fuel db cursor acc exD).1
        = (cleanupLoop fs psize false fuel
            (db.filter (fun r => decide ((r.path, r.filename) ∉ del)))
            cursor acc exW).1 := by
  intro fuel
  induction fuel with
  | zero => intros; rfl
  | succ n ih =>
    intro db del cursor acc exD exW hdel
    unfold cleanupLoop
    rw [pageQuery_filter_stable db del cursor psize hdel]
    by_cases hpage : pageQuery db cursor psize = []
    · rw [dif_pos hpage, dif_pos hpage]
    · rw [dif_neg hpage, dif_neg hpage]
      have hcompose : ((db.filter (fun r => decide ((r.path, r.filename) ∉ del))).filter
            (fun r => decide ((r.path, r.filename) ∉
              (processPage fs (pageQuery db cursor psize)).deletedFiles)))
          = db.filter (fun r => decide ((r.path, r.filename) ∉
              (del ++ (processPage fs (pageQuery db cursor psize)).deletedFiles))) := by
        rw [List.filter_filter]
        apply List.filter_congr
        intro r hr
        by_cases h1 : (r.path, r.filename) ∈ del <;>
          by_cases h2 : (r.path, r.filename) ∈
            (processPage fs (pageQuery db cursor psize)).deletedFiles <;>
          simp [h1, h2]
      have hbound : ∀ pf ∈ del ++ (processPage fs (pageQuery db cursor psize)).deletedFiles,
          cursorLtB (some (rowKey ((pageQuery db cursor psize).getLast hpage)))
            (pairKey pf) = false := by
        intro pf hpf
        rcases List.mem_append.mp hpf with h | h
        · have hold := hdel pf h
          cases cursor with
          | none => cases hold
          | some c =>
            have hle : pairKey pf ≤ c := not_lt.mp (of_decide_eq_false hold)
            have hlt : c < rowKey ((pageQuery db (some c) psize).getLast hpage) := by
              have hmem := List.getLast_mem hpage
              have hcur := mem_pageQuery_cursor db (some c) psize _ hmem
              exact of_decide_eq_true hcur
            show decide _ = false
            apply decide_eq_false
            intro hcon
            exact absurd hlt (not_lt.mpr (le_trans (le_of_lt hcon) hle))
        · obtain ⟨r, hrpage, hreq⟩ := processPage_deleted_sourced fs _ pf h
          have hle : rowKey r ≤ rowKey ((pageQuery db cursor psize).getLast hpage) :=
            sorted_key_le_getLast rowKey _ (pageQuery_sorted db cursor psize)
              hpage r hrpage
          show decide _ = false
          apply decide_eq_false
          intro hcon
          rw [← hreq] at hcon
          exact absurd hcon (not_lt.mpr hle)
      rw [delete_files_dry, delete_files_wet_db, hcompose]
      exact ih db
        (del ++ (processPage fs (pageQuery db cursor psize)).deletedFiles)
        (some (rowKey ((pageQuery db cursor psize).getLast hpage)))
        (accAddPage acc (processPage fs (pageQuery db cursor psize)))
        (exD ++ ([] : List (String × String)))
        (exW ++ (delete_files_from_database
          (db.filter (fun r => decide ((r.path, r.filename) ∉ del)))
          (processPage fs (pageQuery db cursor psize)).deletedFiles false).2)
        hbound

theorem dedup_filter {α : Type} [DecidableEq α] (p : α → Bool) :
    ∀ l : List α, (l.filter p).dedup = l.dedup.filter p := by
  intro l
  induction l with
  | nil => rfl
  | cons a t ih =>
    by_cases hpa : p a = true
    · rw [List.filter_cons_of_pos hpa]
      by_cases hmem : a ∈ t
      · have hmf : a ∈ t.filter p := List.mem_filter.mpr ⟨hmem, hpa⟩
        rw [List.dedup_cons_of_mem hmf, List.dedup_cons_of_mem hmem, ih]
      · have hmf : a ∉ t.filter p := fun h => hmem (List.mem_of_mem_filter h)
        rw [List.dedup_cons_of_not_mem hmf, List.dedup_cons_of_not_mem hmem,
          List.filter_cons_of_pos hpa, ih]
    · rw [List.filter_cons_of_neg (by simpa using hpa)]
      by_cases hmem : a ∈ t
      · rw [List.dedup_cons_of_mem hmem, ih]
      · rw [List.dedup_cons_of_not_mem hmem,
          List.filter_cons_of_neg (by simpa using hpa), ih]

theorem map_path_filter (db : List CatRow) (del : List String) :
    (db.filter (fun r => decide (r.path ∉ del))).map (fun r => r.path)
      = (db.map (fun r => r.path)).filter (fun p => decide (p ∉ del)) := by
  induction db with
  | nil => rfl
  | cons r t ih =>
    by_cases h : r.path ∈ del
    · simp [List.filter_cons, h]
      simpa using ih
    · simp [List.filter_cons, h]
      simpa using ih

theorem dirPageQuery_sorted (db : List CatRow) (cursor : Option (List Char))
    (psize : Nat) : (dirPageQuery db cursor psize).Sorted strLE := by
  unfold dirPageQuery
  exact (List.sorted_insertionSort strLE _).sublist (List.take_sublist _ _)

theorem mem_dirPageQuery_cursor (db : List CatRow) (cursor : Option (List Char))
    (psize : Nat) :
    ∀ p ∈ dirPageQuery db cursor psize, dirCursorLtB cursor p = true := by
  intro p hp
  unfold dirPageQuery at hp
  have hp1 : p ∈ ((db.map (fun r => r.path)).dedup.filter
      (fun q => dirCursorLtB cursor q)).insertionSort strLE :=
    (List.take_sublist _ _).subset hp
  rw [(List.perm_insertionSort strLE _).mem_iff] at hp1
  exact (List.mem_filter.mp hp1).2

theorem emptyDirPhase_fold_sources (fs : CleanupFS) :
    ∀ (dirs : List String) (st : DirPageState),
      ∀ p ∈ (dirs.foldl (emptyDirStep fs) st).pageDeleted,
        p ∈ st.pageDeleted ∨ p ∈ dirs := by
  intro dirs
  induction dirs with
  | nil => intro st p hp; exact Or.inl hp
  | cons d rest ih =>
    intro st p hp
    rw [List.foldl_cons] at hp
    rcases ih _ p hp with h | h
    · unfold emptyDirStep at h
      cases hdc : fs.dirCheck d <;> simp only [hdc] at h
      · exact Or.inl h
      · rcases List.mem_append.mp h with h1 | h1
        · exact Or.inl h1
        · rw [List.mem_singleton] at h1
          rw [h1]
          exact Or.inr (List.mem_cons_self _ _)
      · exact Or.inl h
      · exact Or.inl h
    · exact Or.inr (List.mem_cons_of_mem _ h)

theorem emptyDirPhase_sources (fs : CleanupFS) (dirs : List String) :
    ∀ p ∈ (emptyDirPhase fs dirs).pageDeleted, p ∈ dirs := by
  intro p hp
  rcases emptyDirPhase_fold_sources fs dirs ⟨[], 0, 0, []⟩ p hp with h | h
  · cases h
  · exact h

theorem delete_dirs_dry (db : List CatRow) (dirs : List String) :
    delete_directories_from_database db dirs true = (db, []) := by
  unfold delete_directories_from_database
  by_cases h : dirs = [] <;> simp [h]

theorem delete_dirs_wet_db (db : List CatRow) (dirs : List String) :
    (delete_directories_from_database db dirs false).1
      = db.filter (fun r => decide (r.path ∉ dirs)) := by
  unfold delete_directories_from_database
  by_cases h : dirs = []
  · subst h
    simp
  · simp [h]

theorem emptyDirLoop_dry_frame (fs : CleanupFS) (psize : Nat) :
    ∀ (fuel : Nat) (db : List CatRow) (cursor : Option (List Char))
      (acc : EmptyDirAcc) (ex : List String),
      (emptyDirLoop fs psize true fuel db cursor acc ex).2.2 = db
      ∧ (emptyDirLoop fs psize true fuel db cursor acc ex).2.1 = ex := by
  intro fuel
  induction fuel with
  | zero => intro db cursor acc ex; exact ⟨rfl, rfl⟩
  | succ n ih =>
    intro db cursor acc ex
    unfold emptyDirLoop
    by_cases hpage : dirPageQuery db cursor psize = []
    · rw [dif_pos hpage]
      exact ⟨rfl, rfl⟩
    · rw [dif_neg hpage]
      rw [delete_dirs_dry]
      simp only [List.append_nil]
      exact ih db _ _ ex

theorem dirPageQuery_filter_stable (db : List CatRow) (del : List String)
    (cursor : Option (List Char)) (psize : Nat)
    (hdel : ∀ p ∈ del, dirCursorLtB cursor p = false) :
    dirPageQuery (db.filter (fun r => decide (r.path ∉ del))) cursor psize
      = dirPageQuery db cursor psize := by
  unfold dirPageQuery
  rw [map_path_filter, dedup_filter]
  have hfilter : (((db.map (fun r => r.path)).dedup.filter
        (fun p => decide (p ∉ del))).filter (fun p => dirCursorLtB cursor p))
      = (db.map (fun r => r.path)).dedup.filter (fun p => dirCursorLtB cursor p) := by
    rw [List.filter_filter]
    apply List.filter_congr
    intro p hp
    cases hc : dirCursorLtB cursor p with
    | false => exact Bool.false_and _
    | true =>
      rw [Bool.true_and, decide_eq_true_eq]
      intro hin
      have hfalse := hdel p hin
      rw [hc] at hfalse
      cases hfalse
  rw [hfilter]

theorem emptyDirLoop_dry_wet (fs : CleanupFS) (psize : Nat) :
    ∀ (fuel : Nat) (db : List CatRow) (del : List String)
      (cursor : Option (List Char)) (acc : EmptyDirAcc) (exD exW : List String),
      (∀ p ∈ del, dirCursorLtB cursor p = false) →
      (emptyDirLoop fs psize true fuel db cursor acc exD).1
        = (emptyDirLoop fs psize false fuel
            (db.filter (fun r => decide (r.path ∉ del))) cursor acc exW).1 := by
  intro fuel
  induction fuel with
  | zero => intros; rfl
  | succ n ih =>
    intro db del cursor acc exD exW hdel
    unfold emptyDirLoop
    rw [dirPageQuery_filter_stable db del cursor psize hdel]
    by_cases hpage : dirPageQuery db cursor psize = []
    · rw [dif_pos hpage, dif_pos hpage]
    · rw [dif_neg hpage, dif_neg hpage]
      have hcompose : ((db.filter (fun r => decide (r.path ∉ del))).filter
            (fun r => decide (r.path ∉
              (emptyDirPhase fs (dirPageQuery db cursor psize)).pageDeleted)))
          = db.filter (fun r => decide (r.path ∉
              (del ++ (emptyDirPhase fs (dirPageQuery db cursor psize)).pageDeleted))) := by
        rw [List.filter_filter]
        apply List.filter_congr
        intro r hr
        by_cases h1 : r.path ∈ del <;>
          by_cases h2 : r.path ∈
            (emptyDirPhase fs (dirPageQuery db cursor psize)).pageDeleted <;>
          simp [h1, h2]
      have hbound : ∀ p ∈ del ++ (emptyDirPhase fs (dirPageQuery db cursor psize)).pageDeleted,
          dirCursorLtB (some ((dirPageQuery db cursor psize).getLast hpage).data)
            p = false := by
        intro p hp
        rcases List.mem_append.mp hp with h | h
        · have hold := hdel p h
          cases cursor with
          | none => cases hold
          | some c =>
            have hle : p.data ≤ c := not_lt.mp (of_decide_eq_false hold)
            have hlt : c < ((dirPageQuery db (some c) psize).getLast hpage).data := by
              have hmem := List.getLast_mem hpage
              have hcur := mem_dirPageQuery_cursor db (some c) psize _ hmem
              exact of_decide_eq_true hcur
            show decide _ = false
            apply decide_eq_false
            intro hcon
            exact absurd hlt (not_lt.mpr (le_trans (le_of_lt hcon) hle))
        · have hmem : p ∈ dirPageQuery db cursor psize :=
            emptyDirPhase_sources fs _ p h
          have hle : p.data ≤ ((dirPageQuery db cursor psize).getLast hpage).data :=
            sorted_key_le_getLast (fun s : String => s.data) _
              (dirPageQuery_sorted db cursor psize) hpage p hmem
          show decide _ = false
          apply decide_eq_false
          intro hcon
          exact absurd hcon (not_lt.mpr hle)
      rw [delete_dirs_dry, delete_dirs_wet_db, hcompose]
      exact ih db
        (del ++ (emptyDirPhase fs (dirPageQuery db cursor psize)).pageDeleted)
        (some ((dirPageQuery db cursor psize).getLast hpage).data)
        (accAddDirPage acc (emptyDirPhase fs (dirPageQuery db cursor psize)))
        (exD ++ ([] : List String))
        (exW ++ (delete_directories_from_database
          (db.filter (fun r => decide (r.path ∉ del)))
          (emptyDirPhase fs (dirPageQuery db cursor psize)).pageDeleted false).2)
        hbound

theorem filter_not_mem_nil_pairs (db : List CatRow) :
    db.filter (fun r => decide ((r.path, r.filename) ∉ ([] : List (String × String)))) = db := by
  simp

theorem filter_not_mem_nil_dirs (db : List CatRow) :
    db.filter (fun r => decide (r.path ∉ ([] : List String))) = db := by
  simp

/-- C10: with dry_run=True, neither cleanup_deleted_files nor
cleanup_empty_directories changes the catalog — no DELETE is executed —
while the returned statistics are exactly those of the corresponding
destructive run. -/
theorem dry_run_reports_without_deleting (fs : CleanupFS) (db : List CatRow)
    (psize psize2 : Nat) :
    (cleanup_deleted_files fs db psize true).db = db
    ∧ (cleanup_deleted_files fs db psize true).executedDeletes = []
    ∧ (cleanup_deleted_files fs db psize true).stats
        = (cleanup_deleted_files fs db psize false).stats
    ∧ (cleanup_empty_directories fs db psize2 true).db = db
    ∧ (cleanup_empty_directories fs db psize2 true).executedDeletes = []
    ∧ (cleanup_empty_directories fs db psize2 true).stats
        = (cleanup_empty_directories fs db psize2 false).stats := by
  refine ⟨?_, ?_, ?_, ?_, ?_, ?_⟩
  · unfold cleanup_deleted_files
    by_cases hlen : db.length = 0
    · rw [if_pos hlen]
    · rw [if_neg hlen]
      exact (cleanupLoop_dry_frame fs psize _ db none emptyCleanupAcc []).1
  · unfold cleanup_deleted_files
    by_cases hlen : db.length = 0
    · rw [if_pos hlen]
    · rw [if_neg hlen]
      exact (cleanupLoop_dry_frame fs psize _ db none emptyCleanupAcc []).2
  · unfold cleanup_deleted_files
    by_cases hlen : db.length = 0
    · rw [if_pos hlen, if_pos hlen]
    · rw [if_neg hlen, if_neg hlen]
      have h0 : ∀ pf ∈ ([] : List (String × String)),
          cursorLtB none (pairKey pf) = false := by
        intro pf hpf
        cases hpf
      have heq := cleanupLoop_dry_wet fs psize (db.length + 1) db [] none
        emptyCleanupAcc [] [] h0
      rw [filter_not_mem_nil_pairs] at heq
      simp only [heq]
  · unfold cleanup_empty_directories
    by_cases hlen : (db.map (fun r => r.path)).dedup.length = 0
    · rw [if_pos hlen]
    · rw [if_neg hlen]
      exact (emptyDirLoop_dry_frame fs psize2 _ db none ⟨[], 0, 0, []⟩ []).1
  · unfold cleanup_empty_directories
    by_cases hlen : (db.map (fun r => r.path)).dedup.length = 0
    · rw [if_pos hlen]
    · rw [if_neg hlen]
      exact (emptyDirLoop_dry_frame fs psize2 _ db none ⟨[], 0, 0, []⟩ []).2
  · unfold cleanup_empty_directories
    by_cases hlen : (db.map (fun r => r.path)).dedup.length = 0
    · rw [if_pos hlen, if_pos hlen]
    · rw [if_neg hlen, if_neg hlen]
      have h0 : ∀ p ∈ ([] : List String), dirCursorLtB none p = false := by
        intro p hp
        cases hp
      have heq := emptyDirLoop_dry_wet fs psize2 (db.length + 1) db [] none
        ⟨[], 0, 0, []⟩ [] [] h0
      rw [filter_not_mem_nil_dirs] at heq
      simp only [heq]

theorem process_file_step_calc (cfg : Config) (stat : PathName → StatRes)
    (existing : PathName → Option StoredRec) (acc : BatchClassification)
    (p : PathName) :
    (process_file_step cfg stat existing acc p).counters.checksumCalculations
      = acc.counters.checksumCalculations := by
  unfold process_file_step
  cases stat p with
  | permDenied => rfl
  | osError => rfl
  | ok m s =>
    cases existing p with
    | some r =>
      by_cases h : m = r.mtime ∧ s = r.size
      · simp only [if_pos h]
      · simp only [if_neg h]
    | none => rfl

theorem process_file_step_reuses (cfg : Config) (fs : FS) (db : Db)
    (acc : BatchClassification) (p : PathName) :
    (process_file_step cfg fs.stat db acc p).counters.checksumReuses
      = acc.counters.checksumReuses + (if reusedOnRescan fs db p then 1 else 0) := by
  unfold process_file_step reusedOnRescan
  cases fs.stat p with
  | permDenied => simp
  | osError => simp
  | ok m s =>
    cases db p with
    | some r =>
      by_cases h : m = r.mtime ∧ s = r.size
      · simp only [if_pos h]
        obtain ⟨h1, h2⟩ := h
        subst h1
        subst h2
        simp
      · simp only [if_neg h]
        have hd : decide (m = r.mtime ∧ s = r.size ∧ r.checksum.isSome = true) = false := by
          rw [decide_eq_false_iff_not]
          rintro ⟨h1, h2, -⟩
          exact h ⟨h1, h2⟩
        simp [hd]
    | none => simp

theorem foldl_process_file_step_calc (cfg : Config) (stat : PathName → StatRes)
    (existing : PathName → Option StoredRec) (paths : List PathName) :
    ∀ acc, (paths.foldl (process_file_step cfg stat existing) acc).counters.checksumCalculations
      = acc.counters.checksumCalculations := by
  induction paths with
  | nil => intro acc; rfl
  | cons p ps ih =>
    intro acc
    rw [List.foldl_cons, ih, process_file_step_calc]

theorem foldl_process_file_step_reuses (cfg : Config) (fs : FS) (db : Db)
    (paths : List PathName) :
    ∀ acc, (paths.foldl (process_file_step cfg fs.stat db) acc).counters.checksumReuses
      = acc.counters.checksumReuses + paths.countP (reusedOnRescan fs db) := by
  induction paths with
  | nil => intro acc; simp
  | cons p ps ih =>
    intro acc
    rw [List.foldl_cons, ih, process_file_step_reuses, List.countP_cons]
    cases hr : reusedOnRescan fs db p <;> simp [hr] <;> omega

theorem process_files_batch_calc (cfg : Config) (stat : PathName → StatRes)
    (existing : PathName → Option StoredRec) (c : Counters) (paths : List PathName) :
    (process_files_batch cfg stat existing c paths).counters.checksumCalculations
      = c.checksumCalculations := by
  unfold process_files_batch
  exact foldl_process_file_step_calc cfg stat existing paths ⟨[], [], [], c⟩

theorem process_files_batch_reuses (cfg : Config) (fs : FS) (db : Db)
    (c : Counters) (paths : List PathName) :
    (process_files_batch cfg fs.stat db c paths).counters.checksumReuses
      = c.checksumReuses + paths.countP (reusedOnRescan fs db) := by
  unfold process_files_batch
  exact foldl_process_file_step_reuses cfg fs db paths ⟨[], [], [], c⟩

theorem foldl_collect_noop (fs : FS) (paths : List PathName) :
    (∀ p ∈ paths, workerDigest fs p = "") →
    ∀ init : ChecksumRun, paths.foldl (collectChecksumStep fs) init = init := by
  induction paths with
  | nil => intro _ init; rfl
  | cons x xs ih =>
    intro h init
    rw [List.foldl_cons]
    have hx : workerDigest fs x = "" := h x (List.mem_cons_self x xs)
    have hstep : collectChecksumStep fs init x = init := by
      unfold collectChecksumStep
      simp [hx]
    rw [hstep]
    exact ih (fun p hp => h p (List.mem_cons_of_mem x hp)) init

theorem pendingToRows_eq_filterMap (needing : List PathName)
    (checksums : PathName → Option String) (pending : List PendingEntry) :
    pendingToRows needing checksums pending
      = pending.filterMap (rowFn needing checksums) := rfl

theorem rowFn_path (needing : List PathName) (cs : PathName → Option String)
    (e : PendingEntry) (w : WriteRow) (h : rowFn needing cs e = some w) :
    w.path = e.path := by
  unfold rowFn at h
  by_cases hb : e.needsChecksum
  · rw [if_pos hb] at h
    cases hcs : cs e.path with
    | some d =>
      rw [hcs] at h
      cases h
      rfl
    | none =>
      rw [hcs] at h
      by_cases hm : e.path ∈ needing
      · rw [if_pos hm] at h
        cases h
      · rw [if_neg hm] at h
        cases h
        rfl
  · rw [if_neg hb] at h
    cases h
    rfl

theorem pendingToRows_nil (needing : List PathName) (pending : List PendingEntry)
    (h : ∀ e ∈ pending, e.needsChecksum = true ∧ e.path ∈ needing) :
    pendingToRows needing (fun _ => none) pending = [] := by
  rw [pendingToRows_eq_filterMap, List.filterMap_eq_nil]
  intro e he
  obtain ⟨h1, h2⟩ := h e he
  unfold rowFn
  rw [if_pos h1]
  simp [h2]

theorem foldl_dbInsertRow_frame (now : Int) (p : PathName) :
    ∀ (rows : List WriteRow) (db : Db), (∀ w ∈ rows, w.path ≠ p) →
      (rows.foldl (dbInsertRow now) db) p = db p := by
  intro rows
  induction rows with
  | nil => intro db _; rfl
  | cons w ws ih =>
    intro db h
    rw [List.foldl_cons, ih _ (fun u hu => h u (List.mem_cons_of_mem w hu))]
    simp only [dbInsertRow]
    rw [if_neg (Ne.symm (h w (List.mem_cons_self w ws)))]

theorem execUpdates_frame (now : Int) (p : PathName) :
    ∀ (rows : List WriteRow) (db : Db), (∀ w ∈ rows, w.path ≠ p) →
      (execUpdates now db rows) p = db p := by
  intro rows
  induction rows with
  | nil => intro db _; rfl
  | cons w ws ih =>
    intro db h
    show (execUpdates now (dbUpdateRow now db w) ws) p = db p
    rw [ih _ (fun u hu => h u (List.mem_cons_of_mem w hu))]
    cases hw : db w.path with
    | none => simp only [dbUpdateRow, hw]
    | some r =>
      simp only [dbUpdateRow, hw]
      rw [if_neg (Ne.symm (h w (List.mem_cons_self w ws)))]

theorem foldl_dbInsertRow_apply (now : Int) (p : PathName) (w : WriteRow)
    (l1 l2 : List WriteRow) (db : Db)
    (h1 : ∀ u ∈ l1, u.path ≠ p) (h2 : ∀ u ∈ l2, u.path ≠ p) (hw : w.path = p) :
    ((l1 ++ w :: l2).foldl (dbInsertRow now) db) p
      = some ⟨w.checksum, w.mtime, w.size, now⟩ := by
  rw [List.foldl_append, List.foldl_cons]
  rw [foldl_dbInsertRow_frame now p l2 _ h2]
  simp only [dbInsertRow]
  rw [hw, if_pos rfl]

theorem execUpdates_apply (now : Int) (p : PathName) (w : WriteRow)
    (l1 l2 : List WriteRow) (db : Db) (r : StoredRec)
    (h1 : ∀ u ∈ l1, u.path ≠ p) (h2 : ∀ u ∈ l2, u.path ≠ p) (hw : w.path = p)
    (hdb : db p = some r) :
    (execUpdates now db (l1 ++ w :: l2)) p
      = some ⟨w.checksum, w.mtime, w.size, now⟩ := by
  unfold execUpdates
  rw [List.foldl_append, List.foldl_cons]
  have hframe : (l1.foldl (dbUpdateRow now) db) p = some r := by
    have hfr := execUpdates_frame now p l1 db h1
    rw [show l1.foldl (dbUpdateRow now) db = execUpdates now db l1 from rfl, hfr, hdb]
  have hkey : (l1.foldl (dbUpdateRow now) db) w.path = some r := by
    rw [hw]
    exact hframe
  rw [show l2.foldl (dbUpdateRow now)
        (dbUpdateRow now (l1.foldl (dbUpdateRow now) db) w)
      = execUpdates now (dbUpdateRow now (l1.foldl (dbUpdateRow now) db) w) l2 from rfl]
  rw [execUpdates_frame now p l2 _ h2]
  simp only [dbUpdateRow, hkey]
  rw [hw, if_pos rfl]

theorem filterMap_path_none (g : PathName → Option WriteRow) (p : PathName)
    (hg : ∀ q w, g q = some w → w.path = q) (batch : List PathName)
    (hp : p ∉ batch) :
    ∀ u ∈ batch.filterMap g, u.path ≠ p := by
  intro u hu
  obtain ⟨q, hq, hgq⟩ := List.mem_filterMap.mp hu
  rw [hg q u hgq]
  exact fun he => hp (he ▸ hq)

theorem filterMap_path_eq (g : PathName → Option WriteRow) (p : PathName)
    (hg : ∀ q w, g q = some w → w.path = q) :
    ∀ batch : List PathName, batch.Nodup → p ∈ batch →
      ∃ l1 l2, batch.filterMap g = l1 ++ ((g p).toList ++ l2)
        ∧ (∀ u ∈ l1, u.path ≠ p) ∧ (∀ u ∈ l2, u.path ≠ p) := by
  intro batch
  induction batch with
  | nil => intro _ h; cases h
  | cons q qs ih =>
    intro hnd hp
    rw [List.nodup_cons] at hnd
    rcases List.mem_cons.mp hp with rfl | hpq
    · refine ⟨[], qs.filterMap g, ?_, ?_, ?_⟩
      · rw [List.filterMap_cons]
        cases hgq : g p with
        | none => simp
        | some w => simp
      · intro u hu
        cases hu
      · exact filterMap_path_none g p hg qs hnd.1
    · obtain ⟨l1, l2, hdec, h1, h2⟩ := ih hnd.2 hpq
      rw [List.filterMap_cons]
      cases hgq : g q with
      | none => exact ⟨l1, l2, hdec, h1, h2⟩
      | some w =>
        refine ⟨w :: l1, l2, ?_, ?_, h2⟩
        · rw [hdec]
          rfl
        · intro u hu
          rcases List.mem_cons.mp hu with rfl | hu'
          · rw [hg q u hgq]
            intro he
            exact hnd.1 (he ▸ hpq)
          · exact h1 u hu'

theorem batchChecksums_eq (cfg : Config) (fs : FS) (db : Db) (c : Counters)
    (batch : List PathName) (q : PathName) :
    batchChecksums cfg fs db c batch q
      = if workerDigest fs q ≠ ""
          ∧ q ∈ batch.filter (needsChecksumBool cfg fs.stat db)
        then some (workerDigest fs q) else none := by
  unfold batchChecksums calculate_checksums_sequential
  rw [foldl_collect_checksums, process_files_batch_filesNeedingChecksums]

theorem process_batch_fst (cfg : Config) (fs : FS) (now : Int) (db : Db)
    (c : Counters) (batch : List PathName) :
    (process_batch cfg fs now db c batch).1
      = execUpdates now
          ((batch.filterMap (insertRowOf cfg fs db c batch)).foldl (dbInsertRow now) db)
          (batch.filterMap (updateRowOf cfg fs db c batch)) := by
  unfold process_batch insertRowOf updateRowOf
  simp only [pendingToRows_eq_filterMap, process_files_batch_filesToInsert,
    process_files_batch_filesToUpdate, List.filterMap_filterMap]
  rfl

theorem rowFn_eval (needing : List PathName) (cs : PathName → Option String)
    (q : PathName) (m : Int) (s : Nat) (b : Bool) :
    rowFn needing cs ⟨q, m, s, b⟩
      = if b then
          match cs q with
          | some d => some ⟨q, some d, m, s⟩
          | none => if q ∈ needing then none else some ⟨q, none, m, s⟩
        else some ⟨q, none, m, s⟩ := rfl

theorem insertRowOf_eval (cfg : Config) (fs : FS) (db : Db) (c : Counters)
    (batch : List PathName) (q : PathName) (e : PendingEntry)
    (h : insertEntryOf cfg fs.stat db q = some e) :
    insertRowOf cfg fs db c batch q
      = rowFn (process_files_batch cfg fs.stat db c batch).filesNeedingChecksums
          (batchChecksums cfg fs db c batch) e := by
  unfold insertRowOf
  rw [h]
  rfl

theorem insertRowOf_none (cfg : Config) (fs : FS) (db : Db) (c : Counters)
    (batch : List PathName) (q : PathName)
    (h : insertEntryOf cfg fs.stat db q = none) :
    insertRowOf cfg fs db c batch q = none := by
  unfold insertRowOf
  rw [h]
  rfl

theorem updateRowOf_eval (cfg : Config) (fs : FS) (db : Db) (c : Counters)
    (batch : List PathName) (q : PathName) (e : PendingEntry)
    (h : updateEntryOf cfg fs.stat db q = some e) :
    updateRowOf cfg fs db c batch q
      = rowFn (process_files_batch cfg fs.stat db c batch).filesNeedingChecksums
          (batchChecksums cfg fs db c batch) e := by
  unfold updateRowOf
  rw [h]
  rfl

theorem updateRowOf_none (cfg : Config) (fs : FS) (db : Db) (c : Counters)
    (batch : List PathName) (q : PathName)
    (h : updateEntryOf cfg fs.stat db q = none) :
    updateRowOf cfg fs db c batch q = none := by
  unfold updateRowOf
  rw [h]
  rfl

theorem insertRowOf_path (cfg : Config) (fs : FS) (db : Db) (c : Counters)
    (batch : List PathName) (q : PathName) (w : WriteRow)
    (h : insertRowOf cfg fs db c batch q = some w) : w.path = q := by
  cases he : insertEntryOf cfg fs.stat db q with
  | none => rw [insertRowOf_none cfg fs db c batch q he] at h; cases h
  | some e =>
    rw [insertRowOf_eval cfg fs db c batch q e he] at h
    obtain ⟨m, s, -, -, rfl⟩ := (insertEntryOf_eq_some cfg fs.stat db q e).mp he
    exact rowFn_path _ _ _ _ h

theorem updateRowOf_path (cfg : Config) (fs : FS) (db : Db) (c : Counters)
    (batch : List PathName) (q : PathName) (w : WriteRow)
    (h : updateRowOf cfg fs db c batch q = some w) : w.path = q := by
  cases he : updateEntryOf cfg fs.stat db q with
  | none => rw [updateRowOf_none cfg fs db c batch q he] at h; cases h
  | some e =>
    rw [updateRowOf_eval cfg fs db c batch q e he] at h
    obtain ⟨m, s, r, -, -, -, rfl⟩ := (updateEntryOf_eq_some cfg fs.stat db q e).mp he
    exact rowFn_path _ _ _ _ h

theorem forall_mem_append_ne {l1 l2 : List WriteRow} {p : PathName}
    (h1 : ∀ u ∈ l1, u.path ≠ p) (h2 : ∀ u ∈ l2, u.path ≠ p) :
    ∀ u ∈ l1 ++ l2, u.path ≠ p := by
  intro u hu
  rcases List.mem_append.mp hu with h | h
  · exact h1 u h
  · exact h2 u h

theorem process_batch_frame (cfg : Config) (fs : FS) (now : Int) (db : Db)
    (c : Counters) (batch : List PathName) (p : PathName) (hp : p ∉ batch) :
    (process_batch cfg fs now db c batch).1 p = db p := by
  rw [process_batch_fst]
  rw [execUpdates_frame now p _ _
    (filterMap_path_none _ p (updateRowOf_path cfg fs db c batch) batch hp)]
  exact foldl_dbInsertRow_frame now p _ db
    (filterMap_path_none _ p (insertRowOf_path cfg fs db c batch) batch hp)

theorem rescanStable_congr (cfg : Config) (fs : FS) (db db' : Db) (p : PathName)
    (h : db' p = db p) (hs : rescanStable cfg fs db p) :
    rescanStable cfg fs db' p := by
  unfold rescanStable at *
  cases hst : fs.stat p with
  | ok m s =>
    rw [hst] at hs
    rw [h]
    exact hs
  | permDenied => trivial
  | osError => trivial

theorem process_batch_noop (cfg : Config) (fs : FS) (now : Int) (db : Db)
    (c : Counters) (batch : List PathName)
    (h : ∀ p ∈ batch, rescanStable cfg fs db p) :
    process_batch cfg fs now db c batch
      = (db, (process_files_batch cfg fs.stat db c batch).counters) := by
  have hneed : ∀ q ∈ (process_files_batch cfg fs.stat db c batch).filesNeedingChecksums,
      workerDigest fs q = "" := by
    intro q hq
    rw [process_files_batch_filesNeedingChecksums] at hq
    obtain ⟨hqb, hqn⟩ := List.mem_filter.mp hq
    obtain ⟨m, s, hst, hsc, hne⟩ := (needsChecksumBool_eq_true cfg fs.stat db q).mp hqn
    have hrs := h q hqb
    unfold rescanStable at hrs
    rw [hst] at hrs
    rcases hrs with ⟨r, hr, hm, hsz⟩ | ⟨-, hd⟩
    · exact absurd ⟨hm.symm, hsz.symm⟩ (hne r hr)
    · exact hd
  have hrun : calculate_checksums_sequential fs
      (process_files_batch cfg fs.stat db c batch).counters
      (process_files_batch cfg fs.stat db c batch).filesNeedingChecksums
      = ⟨fun _ => none, (process_files_batch cfg fs.stat db c batch).counters⟩ := by
    unfold calculate_checksums_sequential
    exact foldl_collect_noop fs _ hneed _
  have hI : ∀ e ∈ (process_files_batch cfg fs.stat db c batch).filesToInsert,
      e.needsChecksum = true
        ∧ e.path ∈ (process_files_batch cfg fs.stat db c batch).filesNeedingChecksums := by
    intro e he
    rw [process_files_batch_filesToInsert] at he
    obtain ⟨q, hqb, hqe⟩ := List.mem_filterMap.mp he
    obtain ⟨m, s, hst, hex, rfl⟩ := (insertEntryOf_eq_some cfg fs.stat db q e).mp hqe
    have hrs := h q hqb
    unfold rescanStable at hrs
    rw [hst] at hrs
    rcases hrs with ⟨r, hr, -, -⟩ | ⟨hsc, -⟩
    · rw [hex] at hr
      cases hr
    · refine ⟨hsc, ?_⟩
      rw [process_files_batch_filesNeedingChecksums]
      refine List.mem_filter.mpr ⟨hqb, ?_⟩
      refine (needsChecksumBool_eq_true cfg fs.stat db q).mpr ⟨m, s, hst, hsc, ?_⟩
      intro r hr
      rw [hex] at hr
      cases hr
  have hU : ∀ e ∈ (process_files_batch cfg fs.stat db c batch).filesToUpdate,
      e.needsChecksum = true
        ∧ e.path ∈ (process_files_batch cfg fs.stat db c batch).filesNeedingChecksums := by
    intro e he
    rw [process_files_batch_filesToUpdate] at he
    obtain ⟨q, hqb, hqe⟩ := List.mem_filterMap.mp he
    obtain ⟨m, s, r, hst, hex, hne, rfl⟩ := (updateEntryOf_eq_some cfg fs.stat db q e).mp hqe
    have hrs := h q hqb
    unfold rescanStable at hrs
    rw [hst] at hrs
    rcases hrs with ⟨r', hr', hm, hsz⟩ | ⟨hsc, -⟩
    · rw [hex] at hr'
      injection hr' with hr''
      subst hr''
      exact absurd ⟨hm.symm, hsz.symm⟩ hne
    · refine ⟨hsc, ?_⟩
      rw [process_files_batch_filesNeedingChecksums]
      refine List.mem_filter.mpr ⟨hqb, ?_⟩
      refine (needsChecksumBool_eq_true cfg fs.stat db q).mpr ⟨m, s, hst, hsc, ?_⟩
      intro r'' hr''
      rw [hex] at hr''
      injection hr'' with hr3
      subst hr3
      exact hne
  unfold process_batch
  simp only [hrun]
  rw [pendingToRows_nil _ _ hI, pendingToRows_nil _ _ hU]
  rfl

theorem process_batch_establishes (cfg : Config) (fs : FS) (now : Int) (db : Db)
    (c : Counters) (batch : List PathName) (hnd : batch.Nodup) (p : PathName)
    (hp : p ∈ batch) :
    rescanStable cfg fs (process_batch cfg fs now db c batch).1 p := by
  obtain ⟨li1, li2, hIdec, hIl1, hIl2⟩ :=
    filterMap_path_eq _ p (insertRowOf_path cfg fs db c batch) batch hnd hp
  obtain ⟨lu1, lu2, hUdec, hUl1, hUl2⟩ :=
    filterMap_path_eq _ p (updateRowOf_path cfg fs db c batch) batch hnd hp
  unfold rescanStable
  cases hs : fs.stat p with
  | permDenied => trivial
  | osError => trivial
  | ok m s =>
    cases hdb : db p with
    | some r =>
      have hgIp : insertRowOf cfg fs db c batch p = none := by
        refine insertRowOf_none cfg fs db c batch p ?_
        unfold insertEntryOf
        rw [hs, hdb]
      have hdb1 : ((batch.filterMap (insertRowOf cfg fs db c batch)).foldl
          (dbInsertRow now) db) p = some r := by
        rw [hIdec, hgIp]
        simp only [Option.toList_none, List.nil_append]
        rw [foldl_dbInsertRow_frame now p _ db (forall_mem_append_ne hIl1 hIl2), hdb]
      by_cases hmatch : m = r.mtime ∧ s = r.size
      · have hgUp : updateRowOf cfg fs db c batch p = none := by
          refine updateRowOf_none cfg fs db c batch p ?_
          unfold updateEntryOf
          rw [hs, hdb]
          simp only [if_pos hmatch]
        have hdbf : (process_batch cfg fs now db c batch).1 p = some r := by
          rw [process_batch_fst, hUdec, hgUp]
          simp only [Option.toList_none, List.nil_append]
          rw [execUpdates_frame now p _ _ (forall_mem_append_ne hUl1 hUl2)]
          exact hdb1
        exact Or.inl ⟨r, hdbf, hmatch.1.symm, hmatch.2.symm⟩
      · have hUe : updateEntryOf cfg fs.stat db p
            = some ⟨p, m, s, should_calculate_checksum cfg s⟩ := by
          unfold updateEntryOf
          rw [hs, hdb]
          simp only [if_neg hmatch]
        have hmem : p ∈ (process_files_batch cfg fs.stat db c batch).filesNeedingChecksums
            ↔ should_calculate_checksum cfg s = true := by
          rw [process_files_batch_filesNeedingChecksums]
          constructor
          · intro hm
            obtain ⟨m', s', hst', hsc', -⟩ :=
              (needsChecksumBool_eq_true cfg fs.stat db p).mp (List.mem_filter.mp hm).2
            rw [hs] at hst'
            injection hst' with h1 h2
            rw [h2]
            exact hsc'
          · intro hsc
            refine List.mem_filter.mpr ⟨hp, ?_⟩
            refine (needsChecksumBool_eq_true cfg fs.stat db p).mpr ⟨m, s, hs, hsc, ?_⟩
            intro r' hr'
            rw [hdb] at hr'
            injection hr' with hr''
            subst hr''
            exact hmatch
        by_cases hsc : should_calculate_checksum cfg s = true
        · by_cases hdg : workerDigest fs p = ""
          · have hcs : batchChecksums cfg fs db c batch p = none := by
              rw [batchChecksums_eq, if_neg]
              rintro ⟨hne, -⟩
              exact hne hdg
            have hgUp : updateRowOf cfg fs db c batch p = none := by
              rw [updateRowOf_eval cfg fs db c batch p _ hUe, rowFn_eval, if_pos hsc, hcs]
              simp only [if_pos (hmem.mpr hsc)]
            have hdbf : (process_batch cfg fs now db c batch).1 p = some r := by
              rw [process_batch_fst, hUdec, hgUp]
              simp only [Option.toList_none, List.nil_append]
              rw [execUpdates_frame now p _ _ (forall_mem_append_ne hUl1 hUl2)]
              exact hdb1
            refine Or.inr ⟨hsc, hdg⟩
          · have hcs : batchChecksums cfg fs db c batch p = some (workerDigest fs p) := by
              rw [batchChecksums_eq, if_pos]
              refine ⟨hdg, ?_⟩
              rw [← process_files_batch_filesNeedingChecksums]
              exact hmem.mpr hsc
            have hgUp : updateRowOf cfg fs db c batch p
                = some ⟨p, some (workerDigest fs p), m, s⟩ := by
              rw [updateRowOf_eval cfg fs db c batch p _ hUe, rowFn_eval, if_pos hsc, hcs]
            have hdbf : (process_batch cfg fs now db c batch).1 p
                = some ⟨some (workerDigest fs p), m, s, now⟩ := by
              rw [process_batch_fst, hUdec, hgUp]
              simp only [Option.toList_some, List.singleton_append]
              exact execUpdates_apply now p _ lu1 lu2 _ r hUl1 hUl2 rfl hdb1
            exact Or.inl ⟨⟨some (workerDigest fs p), m, s, now⟩, hdbf, rfl, rfl⟩
        · have hgUp : updateRowOf cfg fs db c batch p = some ⟨p, none, m, s⟩ := by
            rw [updateRowOf_eval cfg fs db c batch p _ hUe, rowFn_eval, if_neg hsc]
          have hdbf : (process_batch cfg fs now db c batch).1 p
              = some ⟨none, m, s, now⟩ := by
            rw [process_batch_fst, hUdec, hgUp]
            simp only [Option.toList_some, List.singleton_append]
            exact execUpdates_apply now p _ lu1 lu2 _ r hUl1 hUl2 rfl hdb1
          exact Or.inl ⟨⟨none, m, s, now⟩, hdbf, rfl, rfl⟩
    | none =>
      have hgUp : updateRowOf cfg fs db c batch p = none := by
        refine updateRowOf_none cfg fs db c batch p ?_
        unfold updateEntryOf
        rw [hs, hdb]
      have hIe : insertEntryOf cfg fs.stat db p
          = some ⟨p, m, s, should_calculate_checksum cfg s⟩ := by
        unfold insertEntryOf
        rw [hs, hdb]
      have hmem : should_calculate_checksum cfg s = true →
          p ∈ (process_files_batch cfg fs.stat db c batch).filesNeedingChecksums := by
        intro hsc
        rw [process_files_batch_filesNeedingChecksums]
        refine List.mem_filter.mpr ⟨hp, ?_⟩
        refine (needsChecksumBool_eq_true cfg fs.stat db p).mpr ⟨m, s, hs, hsc, ?_⟩
        intro r' hr'
        rw [hdb] at hr'
        cases hr'
      have hupd : ∀ v : Option StoredRec,
          ((batch.filterMap (insertRowOf cfg fs db c batch)).foldl
            (dbInsertRow now) db) p = v →
          (process_batch cfg fs now db c batch).1 p = v := by
        intro v hv
        rw [process_batch_fst, hUdec, hgUp]
        simp only [Option.toList_none, List.nil_append]
        rw [execUpdates_frame now p _ _ (forall_mem_append_ne hUl1 hUl2)]
        exact hv
      by_cases hsc : should_calculate_checksum cfg s = true
      · by_cases hdg : workerDigest fs p = ""
        · have hcs : batchChecksums cfg fs db c batch p = none := by
            rw [batchChecksums_eq, if_neg]
            rintro ⟨hne, -⟩
            exact hne hdg
          have hgIp : insertRowOf cfg fs db c batch p = none := by
            rw [insertRowOf_eval cfg fs db c batch p _ hIe, rowFn_eval, if_pos hsc, hcs]
            simp only [if_pos (hmem hsc)]
          have hdbf : (process_batch cfg fs now db c batch).1 p = none := by
            refine hupd none ?_
            rw [hIdec, hgIp]
            simp only [Option.toList_none, List.nil_append]
            rw [foldl_dbInsertRow_frame now p _ db (forall_mem_append_ne hIl1 hIl2), hdb]
          exact Or.inr ⟨hsc, hdg⟩
        · have hcs : batchChecksums cfg fs db c batch p = some (workerDigest fs p) := by
            rw [batchChecksums_eq, if_pos]
            refine ⟨hdg, ?_⟩
            rw [← process_files_batch_filesNeedingChecksums]
            exact hmem hsc
          have hgIp : insertRowOf cfg fs db c batch p
              = some ⟨p, some (workerDigest fs p), m, s⟩ := by
            rw [insertRowOf_eval cfg fs db c batch p _ hIe, rowFn_eval, if_pos hsc, hcs]
          have hdbf : (process_batch cfg fs now db c batch).1 p
              = some ⟨some (workerDigest fs p), m, s, now⟩ := by
            refine hupd _ ?_
            rw [hIdec, hgIp]
            simp only [Option.toList_some, List.singleton_append]
            exact foldl_dbInsertRow_apply now p _ li1 li2 db hIl1 hIl2 rfl
          exact Or.inl ⟨⟨some (workerDigest fs p), m, s, now⟩, hdbf, rfl, rfl⟩
      · have hgIp : insertRowOf cfg fs db c batch p = some ⟨p, none, m, s⟩ := by
          rw [insertRowOf_eval cfg fs db c batch p _ hIe, rowFn_eval, if_neg hsc]
        have hdbf : (process_batch cfg fs now db c batch).1 p
            = some ⟨none, m, s, now⟩ := by
          refine hupd _ ?_
          rw [hIdec, hgIp]
          simp only [Option.toList_some, List.singleton_append]
          exact foldl_dbInsertRow_apply now p _ li1 li2 db hIl1 hIl2 rfl
        exact Or.inl ⟨⟨none, m, s, now⟩, hdbf, rfl, rfl⟩

theorem chunksOf_flatten (n : Nat) : ∀ l : List PathName, (chunksOf n l).flatten = l
  | [] => by rw [chunksOf]; rfl
  | x :: xs => by
    rw [chunksOf, List.flatten_cons, chunksOf_flatten n (xs.drop (n - 1)),
      List.cons_append, List.take_append_drop]
termination_by l => l.length
decreasing_by simp only [List.length_drop, List.length_cons]; omega

theorem chunks_fold_frame (cfg : Config) (fs : FS) (now : Int) :
    ∀ (chunks : List (List PathName)) (st : Db × Counters) (p : PathName),
      p ∉ chunks.flatten →
      ((chunks.foldl (fun s b => process_batch cfg fs now s.1 s.2 b) st).1) p
        = st.1 p := by
  intro chunks
  induction chunks with
  | nil => intro st p _; rfl
  | cons b bs ih =>
    intro st p hp
    rw [List.foldl_cons]
    rw [ih _ p (fun h => hp (by rw [List.flatten_cons]; exact List.mem_append.mpr (Or.inr h)))]
    exact process_batch_frame cfg fs now st.1 st.2 b p
      (fun h => hp (by rw [List.flatten_cons]; exact List.mem_append.mpr (Or.inl h)))

theorem chunks_fold_establishes (cfg : Config) (fs : FS) (now : Int) :
    ∀ (chunks : List (List PathName)) (st : Db × Counters) (p : PathName),
      chunks.flatten.Nodup → p ∈ chunks.flatten →
      rescanStable cfg fs
        ((chunks.foldl (fun s b => process_batch cfg fs now s.1 s.2 b) st).1) p := by
  intro chunks
  induction chunks with
  | nil => intro st p _ h; exact absurd h (by simp)
  | cons b bs ih =>
    intro st p hnd hp
    rw [List.flatten_cons] at hnd hp
    rw [List.nodup_append] at hnd
    obtain ⟨hndb, hndbs, hdisj⟩ := hnd
    rw [List.foldl_cons]
    rcases List.mem_append.mp hp with hpb | hpbs
    · have hstable := process_batch_establishes cfg fs now st.1 st.2 b hndb p hpb
      have hframe := chunks_fold_frame cfg fs now bs
        (process_batch cfg fs now st.1 st.2 b) p (fun h => hdisj hpb h)
      exact rescanStable_congr cfg fs _ _ p hframe hstable
    · exact ih _ p hndbs hpbs

theorem chunks_fold_noop (cfg : Config) (fs : FS) (now : Int) (db : Db) :
    ∀ (chunks : List (List PathName)) (c : Counters),
      (∀ p ∈ chunks.flatten, rescanStable cfg fs db p) →
      (chunks.foldl (fun s b => process_batch cfg fs now s.1 s.2 b) (db, c)).1 = db
      ∧ (chunks.foldl (fun s b => process_batch cfg fs now s.1 s.2 b) (db, c)).2.checksumCalculations
        = c.checksumCalculations
      ∧ (chunks.foldl (fun s b => process_batch cfg fs now s.1 s.2 b) (db, c)).2.checksumReuses
        = c.checksumReuses + chunks.flatten.countP (reusedOnRescan fs db) := by
  intro chunks
  induction chunks with
  | nil => intro c _; exact ⟨rfl, rfl, by simp⟩
  | cons b bs ih =>
    intro c h
    have hb : ∀ p ∈ b, rescanStable cfg fs db p := fun p hp =>
      h p (by rw [List.flatten_cons]; exact List.mem_append.mpr (Or.inl hp))
    have hnoop := process_batch_noop cfg fs now db c b hb
    simp only [List.foldl_cons, hnoop]
    obtain ⟨h1, h2, h3⟩ := ih ((process_files_batch cfg fs.stat db c b).counters)
      (fun p hp => h p (by rw [List.flatten_cons]; exact List.mem_append.mpr (Or.inr hp)))
    refine ⟨h1, ?_, ?_⟩
    · rw [h2, process_files_batch_calc]
    · rw [h3, process_files_batch_reuses, List.flatten_cons, List.countP_append]
      omega

theorem update_database_establishes (cfg : Config) (fs : FS) (now : Int)
    (db : Db) (c : Counters) (paths : List PathName) (batchSize : Nat)
    (hnd : paths.Nodup) :
    ∀ p ∈ paths,
      rescanStable cfg fs (update_database cfg fs now db c paths batchSize).1 p := by
  intro p hp
  show rescanStable cfg fs
    ((chunksOf batchSize paths).foldl (fun s b => process_batch cfg fs now s.1 s.2 b)
      (db, { c with skippedChecksums := 0, skippedFiles := 0, permissionErrors := 0 })).1 p
  refine chunks_fold_establishes cfg fs now (chunksOf batchSize paths) _ p ?_ ?_
  · rw [chunksOf_flatten]; exact hnd
  · rw [chunksOf_flatten]; exact hp

theorem update_database_noop (cfg : Config) (fs : FS) (now2 : Int) (db1 : Db)
    (c1 : Counters) (paths : List PathName) (batchSize : Nat)
    (h : ∀ p ∈ paths, rescanStable cfg fs db1 p) :
    (update_database cfg fs now2 db1 c1 paths batchSize).1 = db1
    ∧ (update_database cfg fs now2 db1 c1 paths batchSize).2.checksumCalculations
      = c1.checksumCalculations
    ∧ (update_database cfg fs now2 db1 c1 paths batchSize).2.checksumReuses
      = c1.checksumReuses + paths.countP (reusedOnRescan fs db1) := by
  have h' : ∀ p ∈ (chunksOf batchSize paths).flatten, rescanStable cfg fs db1 p := by
    rw [chunksOf_flatten]; exact h
  obtain ⟨h1, h2, h3⟩ := chunks_fold_noop cfg fs now2 db1 (chunksOf batchSize paths)
    { c1 with skippedChecksums := 0, skippedFiles := 0, permissionErrors := 0 } h'
  rw [chunksOf_flatten] at h3
  exact ⟨h1, h2, h3⟩

/-- C5 (amended): rescanning an unchanged tree is idempotent on the catalog
and performs no new checksum calculation: for a duplicate-free walked path
list, a second `update_database` run leaves the catalog map identical
(including `indexed_at`), adds nothing to `checksum_calculations`, and adds
to `checksum_reuses` exactly one count per walked path whose stored record
matches the live metadata and carries a checksum. -/
theorem update_database_idempotent (cfg : Config) (fs : FS) (now now2 : Int)
    (db : Db) (c : Counters) (paths : List PathName) (batchSize : Nat)
    (hnd : paths.Nodup) :
    (update_database cfg fs now2 (update_database cfg fs now db c paths batchSize).1
        (update_database cfg fs now db c paths batchSize).2 paths batchSize).1
      = (update_database cfg fs now db c paths batchSize).1
    ∧ (update_database cfg fs now2 (update_database cfg fs now db c paths batchSize).1
        (update_database cfg fs now db c paths batchSize).2 paths batchSize).2.checksumCalculations
      = (update_database cfg fs now db c paths batchSize).2.checksumCalculations
    ∧ (update_database cfg fs now2 (update_database cfg fs now db c paths batchSize).1
        (update_database cfg fs now db c paths batchSize).2 paths batchSize).2.checksumReuses
      = (update_database cfg fs now db c paths batchSize).2.checksumReuses
        + paths.countP
            (reusedOnRescan fs (update_database cfg fs now db c paths batchSize).1) :=
  update_database_noop cfg fs now2 _ _ paths batchSize
    (update_database_establishes cfg fs now db c paths batchSize hnd)

theorem update_database_idempotent_witness :
    paths0.Nodup
    ∧ ((update_database cfg0 fs0 5 (update_database cfg0 fs0 3 db0 c00 paths0 10).1
          (update_database cfg0 fs0 3 db0 c00 paths0 10).2 paths0 10).1
        = (update_database cfg0 fs0 3 db0 c00 paths0 10).1
      ∧ (update_database cfg0 fs0 5 (update_database cfg0 fs0 3 db0 c00 paths0 10).1
          (update_database cfg0 fs0 3 db0 c00 paths0 10).2 paths0 10).2.checksumCalculations
        = (update_database cfg0 fs0 3 db0 c00 paths0 10).2.checksumCalculations
      ∧ (update_database cfg0 fs0 5 (update_database cfg0 fs0 3 db0 c00 paths0 10).1
          (update_database cfg0 fs0 3 db0 c00 paths0 10).2 paths0 10).2.checksumReuses
        = (update_database cfg0 fs0 3 db0 c00 paths0 10).2.checksumReuses
          + paths0.countP
              (reusedOnRescan fs0 (update_database cfg0 fs0 3 db0 c00 paths0 10).1)) :=
  ⟨by decide, update_database_idempotent cfg0 fs0 3 5 db0 c00 paths0 10 (by decide)⟩

/-- C5 counterexample to the unqualified claim: against a catalog holding a
stale record for a file that has since changed and become unreadable, a
rescan pair still leaves the catalog unchanged with zero recalculations,
but the file keeps a stored checksum without ever being counted as a
reuse — the second run adds nothing to `checksum_reuses`. -/
theorem update_database_stale_checksum_counterexample :
    pX ∈ paths0
    ∧ (update_database cfg0 fsX 3 dbX c00 paths0 10).1 pX = some ⟨some "old", 0, 1, 0⟩
    ∧ (update_database cfg0 fsX 5 (update_database cfg0 fsX 3 dbX c00 paths0 10).1
        (update_database cfg0 fsX 3 dbX c00 paths0 10).2 paths0 10).2.checksumReuses
      = (update_database cfg0 fsX 3 dbX c00 paths0 10).2.checksumReuses := by
  have h1 : chunksOf 10 paths0 = [paths0] := by
    rw [show paths0 = [(⟨"/a", "f"⟩ : PathName)] from rfl]
    rw [chunksOf]
    simp only [List.take_nil, List.drop_nil]
    rw [chunksOf]
  have h2 : ∀ (nw : Int) (d : Db) (cc : Counters),
      update_database cfg0 fsX nw d cc paths0 10
        = process_batch cfg0 fsX nw d
            { cc with skippedChecksums := 0, skippedFiles := 0, permissionErrors := 0 }
            paths0 := by
    intro nw d cc
    unfold update_database
    rw [h1]
    rfl
  refine ⟨by decide, ?_, ?_⟩
  · rw [h2]
    decide
  · rw [h2, h2]
    decide

end FileIndexer
